import Mathlib

/-!
# Verification of the status-rollup engine

Shallow embedding of the status-rollup C++ library (`include/status_rollup/status.hpp`,
`src/rollup_rule.cpp`, `src/status_node.cpp`, `src/status_tree.cpp`) and proofs of the
specification's claims about it.

Conventions:
* the C++ `Status` enum becomes an inductive type; its `uint8_t` values are exposed
  through `Status.toNat` (Green=0, Yellow=1, Red=2, Unknown=3) because the Worst rule
  compares statuses with the enum's underlying `operator>`;
* `std::span<const Status>` inputs become `List Status`;
* JSON parameter objects become partial maps `String → Option Int` (`Params`);
* exceptions become `Option String` error components, keeping the mutated state that the
  C++ object retains when an exception unwinds out of a member function.
-/

namespace StatusRollup

/-- `Status` enumeration from `include/status_rollup/status.hpp`
(Green = 0, Yellow = 1, Red = 2, Unknown = 3). -/
inductive Status where
  | green
  | yellow
  | red
  | unknown
deriving DecidableEq, Repr

/-- The `uint8_t` value underlying each enumerator, used by the enum's comparison
operators (`status > worst` in `WorstStatusRule::compute`). -/
def Status.toNat : Status → Nat
  | .green => 0
  | .yellow => 1
  | .red => 2
  | .unknown => 3

/-- `string_to_status` from `status.hpp`: case-sensitive match against
"green"/"yellow"/"red", anything else maps to `Unknown`. -/
def string_to_status (s : String) : Status :=
  if s = "green" then .green
  else if s = "yellow" then .yellow
  else if s = "red" then .red
  else .unknown

/-- `status_to_string` from `status.hpp`. -/
def status_to_string : Status → String
  | .green => "green"
  | .yellow => "yellow"
  | .red => "red"
  | .unknown => "unknown"

/-- Loop body of `WorstStatusRule::compute`: `if (status > worst) worst = status;`,
where `>` is the enum's underlying-value comparison. -/
def sevMax (worst s : Status) : Status :=
  if worst.toNat < s.toNat then s else worst

/-- `WorstStatusRule::compute` from `src/rollup_rule.cpp`: empty input gives `Unknown`,
otherwise fold `sevMax` over the inputs starting from `Green`. -/
def worstCompute (inputs : List Status) : Status :=
  if inputs.isEmpty then .unknown
  else inputs.foldl sevMax .green

/-- Counting loop of `ThresholdRollupRule::compute`: accumulate
`(red_count, yellow_count)`; `Unknown` and `Green` increment neither. -/
def thresholdCounts (inputs : List Status) : Nat × Nat :=
  inputs.foldl
    (fun c s =>
      if s = .red then (c.1 + 1, c.2)
      else if s = .yellow then (c.1, c.2 + 1)
      else c)
    (0, 0)

/-- `ThresholdRollupRule::compute` from `src/rollup_rule.cpp`. The three parameters are
C++ `int`s, modelled as `Int`; the counts are non-negative and compared against the
parameters with `>=` in the source's order (red threshold, then yellow-to-red, then
yellow-to-yellow). -/
def thresholdCompute (red_threshold yellow_to_yellow yellow_to_red : Int)
    (inputs : List Status) : Status :=
  if inputs.isEmpty then .unknown
  else
    let c := thresholdCounts inputs
    if (c.1 : Int) ≥ red_threshold then .red
    else if (c.2 : Int) ≥ yellow_to_red then .red
    else if (c.2 : Int) ≥ yellow_to_yellow then .yellow
    else .green

/-- Tally loop of `MajorityVoteRule::compute`: `counts[3]` indexed Green, Yellow, Red;
`Unknown` inputs are skipped. -/
def majorityCounts (inputs : List Status) : Nat × Nat × Nat :=
  inputs.foldl
    (fun c s =>
      match s with
      | .green => (c.1 + 1, c.2.1, c.2.2)
      | .yellow => (c.1, c.2.1 + 1, c.2.2)
      | .red => (c.1, c.2.1, c.2.2 + 1)
      | .unknown => c)
    (0, 0, 0)

/-- Selection loop of `MajorityVoteRule::compute`: starting from
`max_count = 0, majority = Green`, scan the three counts in Green, Yellow, Red order,
updating only on a strictly larger count. -/
def majorityScan (cG cY cR : Nat) : Status :=
  let p1 := if cG > 0 then (cG, Status.green) else ((0 : Nat), Status.green)
  let p2 := if cY > p1.1 then (cY, Status.yellow) else p1
  let p3 := if cR > p2.1 then (cR, Status.red) else p2
  p3.2

/-- `MajorityVoteRule::compute` from `src/rollup_rule.cpp`. -/
def majorityCompute (inputs : List Status) : Status :=
  if inputs.isEmpty then .unknown
  else
    let c := majorityCounts inputs
    majorityScan c.1 c.2.1 c.2.2

/-- Closed set of rule implementations registered in `RuleFactory::create`
(`rollup_rule.cpp`): `WorstStatusRule`, `ThresholdRollupRule` with its three `int`
parameters, `MajorityVoteRule`. -/
inductive Rule where
  | worst_status
  | threshold_rollup (red_threshold yellow_to_yellow yellow_to_red : Int)
  | majority_vote
deriving DecidableEq, Repr

/-- Dispatch of `RollupRule::compute` over the closed rule set. -/
def ruleCompute : Rule → List Status → Status
  | .worst_status, l => worstCompute l
  | .threshold_rollup rt yy yr, l => thresholdCompute rt yy yr l
  | .majority_vote, l => majorityCompute l

/-- A JSON parameter object, modelled as a partial map from key to integer value. -/
def Params := String → Option Int

/-- `nlohmann::json::value(key, default)` on a parameter object. -/
def Params.value (p : Params) (key : String) (dflt : Int) : Int :=
  (p key).getD dflt

/-- The empty JSON object `json::object()`. -/
def Params.empty : Params := fun _ => none

/-- `RuleFactory::create` from `src/rollup_rule.cpp`: the three registered names, with
`threshold_rollup` reading `red_threshold` (default 1), `yellow_to_yellow` (default 1)
and `yellow_to_red` (default 2) from the parameter object; any other name throws
`"Unknown rule: " + rule_name`. -/
def RuleFactory.create (rule_name : String) (params : Params) : Except String Rule :=
  if rule_name = "worst_status" then .ok .worst_status
  else if rule_name = "threshold_rollup" then
    .ok (.threshold_rollup
      (params.value "red_threshold" 1)
      (params.value "yellow_to_yellow" 1)
      (params.value "yellow_to_red" 2))
  else if rule_name = "majority_vote" then .ok .majority_vote
  else .error ("Unknown rule: " ++ rule_name)

/-! ## Facts about the rules -/

/-! ## The dependency graph: `StatusTree::Impl` from `src/status_tree.cpp`

The engine consumes an already-parsed description: a JSON object mapping node names to
node specifications. A JSON object's keys are distinct; we model the object as an
association list in iteration order, and theorems that need key uniqueness carry it as a
`Nodup` hypothesis. -/

/-- A node specification from the configuration document: `type` (default "imported"),
`rule` (default "worst_status"), `params` (default empty object), `dependencies`
(default empty list), each read with `json::value(key, default)` in `load_config`. -/
structure NodeSpec where
  type : Option String := none
  rule : Option String := none
  params : Option Params := none
  dependencies : Option (List String) := none

/-- `node_config.value("type", "imported")`. -/
def NodeSpec.effType (s : NodeSpec) : String := s.type.getD "imported"

/-- `node_config.value("rule", "worst_status")`. -/
def NodeSpec.ruleName (s : NodeSpec) : String := s.rule.getD "worst_status"

/-- `node_config.value("params", json::object())`. -/
def NodeSpec.ruleParams (s : NodeSpec) : Params := s.params.getD Params.empty

/-- `node_config.value("dependencies", std::vector<std::string>{})`. -/
def NodeSpec.depNames (s : NodeSpec) : List String := s.dependencies.getD []

/-- The description consumed by `load_config`, in map-iteration order. -/
abbrev Config := List (String × NodeSpec)

/-- `cfg.map Prod.fst`: the node identities declared by the description. -/
def keysOf (cfg : Config) : List String := cfg.map Prod.fst

/-- A `StatusNode` (from `src/status_node.cpp`): name, current status (constructed as
`Unknown`), optional rollup rule (absent exactly on leaf nodes), and the list of
dependency names in declared order (the C++ node stores pointers collected from
`nodes_` in `dep_names` order; in a built graph every name resolves, so names are an
equivalent representation). -/
structure StatusNode where
  name : String
  status : Status
  rule : Option Rule
  deps : List String
deriving DecidableEq, Repr

/-- The `nodes_` map of `StatusTree::Impl`, as an association list in insertion order.
Insertion order is creation order: leaves first, then each derived node only after all
of its dependencies — a topological order of the dependency graph. -/
abbrev Nodes := List StatusNode

/-- `nodes_.find(name) != nodes_.end()` — whether a node of this name exists. -/
def containsName (nodes : Nodes) (name : String) : Bool :=
  nodes.any (fun n => n.name = name)

/-- `nodes_.find(name)`, returning the node. -/
def findNode (nodes : Nodes) (name : String) : Option StatusNode :=
  nodes.find? (fun n => n.name = name)

/-- The names of the created nodes (the `created` set of `load_config`, which is kept
identical to the key set of `nodes_`). -/
def namesOf (nodes : Nodes) : List String := nodes.map StatusNode.name

/-- First pass of `StatusTree::Impl::load_config` (lines 53-69): create a node for every
specification whose type is "imported"; such a node has no rule, no dependencies, and
status `Unknown`. -/
def leafPass (cfgs : Config) (nodes : Nodes) : Nodes :=
  match cfgs with
  | [] => nodes
  | (name, spec) :: rest =>
    if spec.effType = "imported" then
      leafPass rest (nodes ++ [⟨name, Status.unknown, none, []⟩])
    else leafPass rest nodes

/-- Result of one scan of the derived-node loop: the `nodes_` map, the `progress` flag,
and the pending exception if `RuleFactory::create` threw. -/
structure PassResult where
  nodes : Nodes
  progress : Bool
  error : Option String
deriving Repr

/-- One full scan of the derived phase of `load_config` (lines 82-135): skip specs whose
name is already created or whose type is not "derived"; when every dependency name of a
spec is created, resolve its rule through the factory (an unknown rule name throws,
abandoning the scan with the map as mutated so far) and append the new node. -/
def passOnce (cfgs : Config) (nodes : Nodes) (progress : Bool) : PassResult :=
  match cfgs with
  | [] => ⟨nodes, progress, none⟩
  | (name, spec) :: rest =>
    if containsName nodes name then passOnce rest nodes progress
    else if spec.effType = "derived" then
      if (spec.depNames).all (containsName nodes) then
        match RuleFactory.create spec.ruleName spec.ruleParams with
        | .error e => ⟨nodes, progress, some e⟩
        | .ok r =>
          passOnce rest (nodes ++ [⟨name, Status.unknown, some r, spec.depNames⟩]) true
      else passOnce rest nodes progress
    else passOnce rest nodes progress

/-- The `while (progress)` loop of `load_config` (lines 78-136), with fuel: each
productive scan creates at least one node and at most `cfgs.length` nodes exist, so
`cfgs.length + 1` scans always reach the fixed point (`buildLoop_fuel_sufficient`
below). -/
def buildLoop (cfgs : Config) : Nat → Nodes → Nodes × Option String
  | 0, nodes => (nodes, none)
  | fuel + 1, nodes =>
    match passOnce cfgs nodes false with
    | ⟨nodes2, _, some e⟩ => (nodes2, some e)
    | ⟨nodes2, true, none⟩ => buildLoop cfgs fuel nodes2
    | ⟨nodes2, false, none⟩ => (nodes2, none)

/-- The exception message of the final all-created check of `load_config` (line 140). -/
def structuralMsg : String :=
  "Failed to create all nodes - possible circular dependency or missing dependency"

/-- `StatusTree::Impl::load_config` on a fresh engine (`nodes_` empty): leaf phase, then
the derived-phase fixed point, then the all-created check. The returned pair is the
`nodes_` map as left in the member variable and the thrown exception message, if any —
the C++ method mutates `nodes_` in place, so on an exception the map keeps every node
created before the throw. -/
def load_config (cfgs : Config) : Nodes × Option String :=
  let leaves := leafPass cfgs []
  match buildLoop cfgs (cfgs.length + 1) leaves with
  | (nodes, some e) => (nodes, some e)
  | (nodes, none) =>
    if nodes.length ≠ cfgs.length then (nodes, some structuralMsg)
    else (nodes, none)

/-- `StatusTree::Impl::set_status` (lines 144-153): unknown name throws; otherwise
`set_imported_status` assigns the node's cached status, for leaf and derived nodes
alike. -/
def set_status (nodes : Nodes) (name : String) (v : Status) : Nodes × Option String :=
  if containsName nodes name then
    (nodes.map (fun n => if n.name = name then { n with status := v } else n), none)
  else (nodes, some ("Unknown node: " ++ name))

/-- `StatusTree::Impl::get_status` (lines 161-171): `nullopt` for an unknown name, else
the node's current cached status. -/
def get_status (nodes : Nodes) (name : String) : Option Status :=
  (findNode nodes name).map StatusNode.status

/-- Dependency-status gathering of `StatusNode::run` (lines 29-33): the current status
of each dependency, in declared order. In a built graph every dependency name resolves;
the `getD Unknown` branch is dead there. -/
def gatherInputs (nodes : Nodes) (deps : List String) : List Status :=
  deps.map (fun d => ((findNode nodes d).map StatusNode.status).getD Status.unknown)

/-- `StatusNode::run` (lines 23-37) applied to the node at position `i`: a leaf (no
rule) does nothing; a derived node recomputes its cached status from its dependencies'
current statuses. -/
def stepNode (nodes : Nodes) (i : Nat) : Nodes :=
  match nodes[i]? with
  | none => nodes
  | some n =>
    match n.rule with
    | none => nodes
    | some r => nodes.set i { n with status := ruleCompute r (gatherInputs nodes n.deps) }

/-- Modelled from the spec: `StatusTree::Impl::compute` delegates to the third-party
CGraph pipeline's `process()`, whose source is not part of this repository. Per spec
§4.4 the evaluator walks the nodes in a cached topological order (every dependency
before its dependents) and runs each node's `run()` — the per-node body embedded in
`stepNode` from `src/status_node.cpp`. For a graph built by `load_config` the creation
order of `nodes_` is such an order, and `evaluate` walks it. -/
def evaluate (nodes : Nodes) : Nodes :=
  (List.range nodes.length).foldl stepNode nodes

/-- The node list is topologically ordered: every dependency name of the node at
position `i` names some node at an earlier position. -/
def TopoSorted (nodes : Nodes) : Prop :=
  ∀ (i : Nat) (x : StatusNode), nodes[i]? = some x → ∀ d ∈ x.deps,
    ∃ (j : Nat) (y : StatusNode), j < i ∧ nodes[j]? = some y ∧ y.name = d

/-- The dependency relation declared by a description: `a` depends on `b` when `a`'s
specification is derived and lists `b`. -/
def depEdge (cfg : Config) (a b : String) : Prop :=
  ∃ spec, (a, spec) ∈ cfg ∧ spec.effType = "derived" ∧ b ∈ spec.depNames

/-- The description contains a dependency cycle. -/
def HasCycle (cfg : Config) : Prop := ∃ n, Relation.TransGen (depEdge cfg) n n

/-- The description contains a dependency reference to an identity it does not
declare. -/
def HasDangling (cfg : Config) : Prop :=
  ∃ name spec d, (name, spec) ∈ cfg ∧ spec.effType = "derived" ∧ d ∈ spec.depNames ∧
    d ∉ keysOf cfg

/-- The prefix of `evaluate` that has processed positions `0, …, k-1`. -/
def evalUpTo (k : Nat) (nodes : Nodes) : Nodes :=
  (List.range k).foldl stepNode nodes

/-- Two nodes agree on everything except possibly a derived node's cached status:
same name, rule and dependency list, and equal status whenever the node is a leaf. -/
def nodeAgrees (x y : StatusNode) : Prop :=
  x.name = y.name ∧ x.rule = y.rule ∧ x.deps = y.deps ∧
    (x.rule = none → x.status = y.status)

/-- Two engine states share topology, rules and every leaf status, differing at most in
derived nodes' cached statuses. -/
def AgreesOnLeaves (a b : Nodes) : Prop :=
  a.length = b.length ∧
    ∀ (j : Nat) (x y : StatusNode), a[j]? = some x → b[j]? = some y → nodeAgrees x y

/-- Every derived node's cached status equals its rule applied to its dependencies'
current statuses — the state `evaluate` leaves behind. -/
def Consistent (ns : Nodes) : Prop :=
  ∀ (j : Nat) (x : StatusNode) (r : Rule), ns[j]? = some x → x.rule = some r →
    x.status = ruleCompute r (gatherInputs ns x.deps)

/-- A sequence of `set_status` calls (imports), applied in order; a call on an unknown
name leaves the state unchanged (the C++ call throws before mutating). -/
def applyImports (ns : Nodes) (imports : List (String × Status)) : Nodes :=
  imports.foldl (fun ns p => (set_status ns p.1 p.2).1) ns

/-- Description with a dangling dependency (`b` depends on the undeclared `c`),
exercising a failing build. -/
def cfgDangling : Config :=
  [("a", { type := some "imported" }),
   ("b", { type := some "derived", dependencies := some ["c"] })]

/-- Description with a two-node dependency cycle. -/
def cfgCycle : Config :=
  [("a", { type := some "derived", dependencies := some ["b"] }),
   ("b", { type := some "derived", dependencies := some ["a"] })]

/-- The spec's end-to-end example description: two leaves and a Worst-rule derived
node over both. -/
def cfgSimple : Config :=
  [("leaf1", { type := some "imported" }),
   ("leaf2", { type := some "imported" }),
   ("derived1", { type := some "derived", rule := some "worst_status",
                  dependencies := some ["leaf1", "leaf2"] })]

/-- A derived specification with no `rule` key, exercising the rule-name default. -/
def cfgDefaultRule : Config :=
  [("l", { type := some "imported" }),
   ("d", { type := some "derived", dependencies := some ["l"] })]

/-- A set of names that can never be created by the derived phase: every description
entry carrying such a name is derived and has a dependency that is itself blocked or
undeclared. -/
def Blocked (cfg : Config) (B : String → Prop) : Prop :=
  ∀ name spec, B name → (name, spec) ∈ cfg →
    spec.effType = "derived" ∧ ∃ d ∈ spec.depNames, B d ∨ d ∉ keysOf cfg

/-- The node that `load_config` creates for a specification: a leaf node for an
imported spec; for a derived spec, a node carrying the rule produced by the factory
from the spec's (defaulted) rule name and parameters, and the spec's dependency list.
Either way the initial status is `Unknown`. -/
def NodeMatchesSpec (spec : NodeSpec) (n : StatusNode) : Prop :=
  (spec.effType = "imported" ∧ n.rule = none ∧ n.deps = [] ∧ n.status = Status.unknown) ∨
  (spec.effType = "derived" ∧ n.deps = spec.depNames ∧ n.status = Status.unknown ∧
    ∃ r, RuleFactory.create spec.ruleName spec.ruleParams = Except.ok r ∧
      n.rule = some r)


lemma sevMax_green (b : Status) : sevMax .green b = b := by
  cases b <;> rfl

lemma sevMax_cases (a b : Status) : sevMax a b = a ∨ sevMax a b = b := by
  unfold sevMax; split
  · exact Or.inr rfl
  · exact Or.inl rfl

lemma le_sevMax_left (a b : Status) : a.toNat ≤ (sevMax a b).toNat := by
  unfold sevMax; split <;> omega

lemma le_sevMax_right (a b : Status) : b.toNat ≤ (sevMax a b).toNat := by
  unfold sevMax; split <;> omega

lemma worstCompute_cons (b : Status) (t : List Status) :
    worstCompute (b :: t) = t.foldl sevMax b := by
  simp [worstCompute, sevMax_green]

lemma foldl_sevMax_mem (l : List Status) (a : Status) : l.foldl sevMax a ∈ a :: l := by
  induction l generalizing a with
  | nil => simp
  | cons b t ih =>
    simp only [List.foldl_cons]
    rcases List.mem_cons.mp (ih (sevMax a b)) with h | h
    · rcases sevMax_cases a b with h1 | h1 <;> rw [h, h1] <;> simp
    · simp [h]

lemma le_foldl_sevMax (l : List Status) (a : Status) :
    a.toNat ≤ (l.foldl sevMax a).toNat ∧ ∀ x ∈ l, x.toNat ≤ (l.foldl sevMax a).toNat := by
  induction l generalizing a with
  | nil => simp
  | cons b t ih =>
    obtain ⟨h1, h2⟩ := ih (sevMax a b)
    simp only [List.foldl_cons]
    refine ⟨le_trans (le_sevMax_left a b) h1, ?_⟩
    intro x hx
    rcases List.mem_cons.mp hx with rfl | hx
    · exact le_trans (le_sevMax_right a x) h1
    · exact h2 x hx

lemma thresholdCounts_aux (l : List Status) (c : Nat × Nat) :
    l.foldl
        (fun c s =>
          if s = Status.red then (c.1 + 1, c.2)
          else if s = Status.yellow then (c.1, c.2 + 1)
          else c)
        c
      = (c.1 + l.count .red, c.2 + l.count .yellow) := by
  induction l generalizing c with
  | nil => simp
  | cons b t ih =>
    simp only [List.foldl_cons, ih]
    cases b <;> simp [List.count_cons] <;> omega

lemma thresholdCounts_eq (l : List Status) :
    thresholdCounts l = (l.count .red, l.count .yellow) := by
  unfold thresholdCounts
  rw [thresholdCounts_aux]
  simp

lemma majorityCounts_aux (l : List Status) (c : Nat × Nat × Nat) :
    l.foldl
        (fun c s =>
          match s with
          | Status.green => (c.1 + 1, c.2.1, c.2.2)
          | Status.yellow => (c.1, c.2.1 + 1, c.2.2)
          | Status.red => (c.1, c.2.1, c.2.2 + 1)
          | Status.unknown => c)
        c
      = (c.1 + l.count .green, c.2.1 + l.count .yellow, c.2.2 + l.count .red) := by
  induction l generalizing c with
  | nil => simp
  | cons b t ih =>
    simp only [List.foldl_cons, ih]
    cases b <;> simp [List.count_cons] <;> omega

lemma majorityCounts_eq (l : List Status) :
    majorityCounts l = (l.count .green, l.count .yellow, l.count .red) := by
  unfold majorityCounts
  rw [majorityCounts_aux]
  simp

lemma majorityScan_eq (cG cY cR : Nat) :
    majorityScan cG cY cR =
      (if cG = max cG (max cY cR) then Status.green
       else if cY = max cG (max cY cR) then Status.yellow
       else Status.red) := by
  have h1 : (if cG > 0 then (cG, Status.green) else ((0 : Nat), Status.green))
      = (cG, Status.green) := by
    rcases Nat.eq_zero_or_pos cG with h | h
    · subst h; rfl
    · rw [if_pos h]
  rcases lt_or_ge cG cY with hYG | hYG
  · rcases lt_or_ge cY cR with hRY | hRY
    · have hscan : majorityScan cG cY cR = Status.red := by
        simp [majorityScan, h1, hYG, hRY]
      rw [hscan, if_neg (by omega), if_neg (by omega)]
    · have hscan : majorityScan cG cY cR = Status.yellow := by
        simp [majorityScan, h1, hYG, Nat.not_lt.mpr hRY]
      rw [hscan, if_neg (by omega), if_pos (by omega)]
  · rcases lt_or_ge cG cR with hRG | hRG
    · have hscan : majorityScan cG cY cR = Status.red := by
        simp [majorityScan, h1, Nat.not_lt.mpr hYG, hRG]
      rw [hscan, if_neg (by omega), if_neg (by omega)]
    · have hscan : majorityScan cG cY cR = Status.green := by
        simp [majorityScan, h1, Nat.not_lt.mpr hYG, Nat.not_lt.mpr hRG]
      rw [hscan, if_pos (by omega)]

lemma isEmpty_false_of_ne_nil {l : List Status} (h : l ≠ []) : l.isEmpty = false := by
  cases l with
  | nil => exact absurd rfl h
  | cons b t => rfl

/-! ## Claim theorems: rollup rules and status strings -/

/-- C2: the Worst rule returns `Unknown` on the empty sequence, and on every non-empty
sequence returns a maximum element of the inputs under the severity order. The severity
order is the order of the enum's underlying values (Green = 0 < Yellow = 1 < Red = 2),
which the source's `status > worst` comparison uses; `Unknown` (value 3) participates at
its ordinal position above Red, exactly as `WorstStatusRule::compute` treats it. -/
theorem worst_rule_is_max (l : List Status) :
    worstCompute [] = Status.unknown ∧
    (l ≠ [] →
      worstCompute l ∈ l ∧ ∀ s ∈ l, s.toNat ≤ (worstCompute l).toNat) := by
  refine ⟨rfl, fun hne => ?_⟩
  obtain ⟨b, t, rfl⟩ := List.exists_cons_of_ne_nil hne
  rw [worstCompute_cons]
  refine ⟨foldl_sevMax_mem t b, fun s hs => ?_⟩
  obtain ⟨h1, h2⟩ := le_foldl_sevMax t b
  rcases List.mem_cons.mp hs with rfl | hs
  · exact h1
  · exact h2 s hs

/-- Witness for `worst_rule_is_max` at the concrete input `[Green, Red]`. -/
theorem worst_rule_is_max_witness :
    ([Status.green, Status.red] : List Status) ≠ [] ∧
    (worstCompute [Status.green, Status.red] ∈ [Status.green, Status.red] ∧
      ∀ s ∈ [Status.green, Status.red],
        s.toNat ≤ (worstCompute [Status.green, Status.red]).toNat) :=
  ⟨by decide, (worst_rule_is_max [Status.green, Status.red]).2 (by decide)⟩

/-- C3: the Threshold rule returns `Unknown` on the empty sequence; on a non-empty
sequence it counts reds and yellows (Unknown counted toward neither) and decides, first
match wins: red count ≥ red_threshold → Red, else yellow count ≥ yellow_to_red → Red,
else yellow count ≥ yellow_to_yellow → Yellow, else Green. With parameters (2, 1, 2)
the four quoted examples evaluate as the claim states. -/
theorem threshold_rule_spec (rt yy yr : Int) (hrt : 0 ≤ rt) (hyy : 0 ≤ yy)
    (hyr : 0 ≤ yr) (l : List Status) :
    thresholdCompute rt yy yr [] = Status.unknown ∧
    (l ≠ [] → thresholdCompute rt yy yr l =
      (if ((l.count Status.red : Nat) : Int) ≥ rt then Status.red
       else if ((l.count Status.yellow : Nat) : Int) ≥ yr then Status.red
       else if ((l.count Status.yellow : Nat) : Int) ≥ yy then Status.yellow
       else Status.green)) ∧
    thresholdCompute 2 1 2 [Status.red, Status.green, Status.green] = Status.green ∧
    thresholdCompute 2 1 2 [Status.red, Status.red, Status.green] = Status.red ∧
    thresholdCompute 2 1 2 [Status.yellow, Status.green, Status.green] = Status.yellow ∧
    thresholdCompute 2 1 2 [Status.yellow, Status.yellow, Status.green] = Status.red := by
  refine ⟨rfl, fun hne => ?_, by decide, by decide, by decide, by decide⟩
  rw [thresholdCompute, if_neg (by simp [isEmpty_false_of_ne_nil hne]), thresholdCounts_eq]

/-- Witness for `threshold_rule_spec` at parameters (2, 1, 2) and input `[Red, Green]`. -/
theorem threshold_rule_spec_witness :
    (0 : Int) ≤ 2 ∧ (0 : Int) ≤ 1 ∧ (0 : Int) ≤ 2 ∧
    ([Status.red, Status.green] : List Status) ≠ [] ∧
    thresholdCompute 2 1 2 [Status.red, Status.green] =
      (if ((([Status.red, Status.green] : List Status).count Status.red : Nat) : Int) ≥ 2
        then Status.red
       else if ((([Status.red, Status.green] : List Status).count Status.yellow : Nat) : Int) ≥ 2
        then Status.red
       else if ((([Status.red, Status.green] : List Status).count Status.yellow : Nat) : Int) ≥ 1
        then Status.yellow
       else Status.green) :=
  ⟨by decide, by decide, by decide, by decide,
    (threshold_rule_spec 2 1 2 (by decide) (by decide) (by decide)
      [Status.red, Status.green]).2.1 (by decide)⟩

/-- C4: MajorityVote returns `Unknown` on the empty sequence; on a non-empty sequence it
tallies Green/Yellow/Red counts excluding `Unknown` inputs and returns the first status,
scanning in Green, Yellow, Red order, whose count attains the maximum of the three
tallies — i.e. the status with the strictly highest count, ties broken by the fixed
Green, Yellow, Red precedence. The four quoted examples evaluate as the claim states. -/
theorem majority_vote_spec (l : List Status) :
    majorityCompute [] = Status.unknown ∧
    (l ≠ [] → majorityCompute l =
      (if l.count Status.green
          = max (l.count Status.green) (max (l.count Status.yellow) (l.count Status.red))
        then Status.green
       else if l.count Status.yellow
          = max (l.count Status.green) (max (l.count Status.yellow) (l.count Status.red))
        then Status.yellow
       else Status.red)) ∧
    majorityCompute [Status.green, Status.green, Status.yellow] = Status.green ∧
    majorityCompute [Status.yellow, Status.yellow, Status.green] = Status.yellow ∧
    majorityCompute [Status.red, Status.red, Status.green] = Status.red ∧
    majorityCompute [Status.green, Status.unknown, Status.green] = Status.green := by
  refine ⟨rfl, fun hne => ?_, by decide, by decide, by decide, by decide⟩
  rw [majorityCompute, if_neg (by simp [isEmpty_false_of_ne_nil hne])]
  rw [majorityCounts_eq]
  exact majorityScan_eq _ _ _

/-- Witness for `majority_vote_spec` at the concrete input `[Red, Yellow, Red]`. -/
theorem majority_vote_spec_witness :
    ([Status.red, Status.yellow, Status.red] : List Status) ≠ [] ∧
    majorityCompute [Status.red, Status.yellow, Status.red] =
      (if ([Status.red, Status.yellow, Status.red] : List Status).count Status.green
          = max (([Status.red, Status.yellow, Status.red] : List Status).count Status.green)
              (max (([Status.red, Status.yellow, Status.red] : List Status).count Status.yellow)
                (([Status.red, Status.yellow, Status.red] : List Status).count Status.red))
        then Status.green
       else if ([Status.red, Status.yellow, Status.red] : List Status).count Status.yellow
          = max (([Status.red, Status.yellow, Status.red] : List Status).count Status.green)
              (max (([Status.red, Status.yellow, Status.red] : List Status).count Status.yellow)
                (([Status.red, Status.yellow, Status.red] : List Status).count Status.red))
        then Status.yellow
       else Status.red) :=
  ⟨by decide,
    (majority_vote_spec [Status.red, Status.yellow, Status.red]).2.1 (by decide)⟩

/-- C9: MajorityVote on a non-empty sequence consisting only of `Unknown` values returns
`Green`: all three tallies are zero, no count strictly exceeds the initial maximum 0, and
the scan's initial value `Green` is kept. -/
theorem majority_all_unknown (l : List Status) (hne : l ≠ [])
    (hu : ∀ s ∈ l, s = Status.unknown) :
    majorityCompute l = Status.green := by
  have hg : l.count Status.green = 0 := by
    rw [List.count_eq_zero]
    intro h
    exact absurd (hu _ h) (by decide)
  have hy : l.count Status.yellow = 0 := by
    rw [List.count_eq_zero]
    intro h
    exact absurd (hu _ h) (by decide)
  have hr : l.count Status.red = 0 := by
    rw [List.count_eq_zero]
    intro h
    exact absurd (hu _ h) (by decide)
  rw [majorityCompute, if_neg (by simp [isEmpty_false_of_ne_nil hne]), majorityCounts_eq]
  simp only [hg, hy, hr]
  decide

/-- Witness for `majority_all_unknown` at the concrete input `[Unknown, Unknown]`. -/
theorem majority_all_unknown_witness :
    ([Status.unknown, Status.unknown] : List Status) ≠ [] ∧
    (∀ s ∈ ([Status.unknown, Status.unknown] : List Status), s = Status.unknown) ∧
    majorityCompute [Status.unknown, Status.unknown] = Status.green :=
  ⟨by decide, by decide,
    majority_all_unknown [Status.unknown, Status.unknown] (by decide) (by decide)⟩

/-- C5: `parse ∘ format` is the identity on Green, Yellow, Red; `format` maps `Unknown`
to "unknown"; and `parse` maps every string other than "green"/"yellow"/"red"
(case-sensitively) to `Unknown`, never failing. -/
theorem status_string_roundtrip (s : Status) (str : String) :
    (s ≠ Status.unknown → string_to_status (status_to_string s) = s) ∧
    status_to_string Status.unknown = "unknown" ∧
    (str ≠ "green" → str ≠ "yellow" → str ≠ "red" → string_to_status str = Status.unknown) := by
  refine ⟨fun h => ?_, rfl, fun h1 h2 h3 => ?_⟩
  · cases s
    · decide
    · decide
    · decide
    · exact absurd rfl h
  · rw [string_to_status, if_neg h1, if_neg h2, if_neg h3]

/-- Witness for `status_string_roundtrip` at `Green` and the unrecognized string
"GREEN". -/
theorem status_string_roundtrip_witness :
    Status.green ≠ Status.unknown ∧
    string_to_status (status_to_string Status.green) = Status.green ∧
    ("GREEN" : String) ≠ "green" ∧
    string_to_status "GREEN" = Status.unknown := by
  have h := status_string_roundtrip Status.green "GREEN"
  exact ⟨by decide, h.1 (by decide), by decide,
    h.2.2 (by decide) (by decide) (by decide)⟩

/-! ## Build lemmas -/

lemma leafPass_cons (name : String) (spec : NodeSpec) (rest : Config) (ns : Nodes) :
    leafPass ((name, spec) :: rest) ns =
      if spec.effType = "imported" then
        leafPass rest (ns ++ [⟨name, Status.unknown, none, []⟩])
      else leafPass rest ns := rfl

lemma passOnce_cons (name : String) (spec : NodeSpec) (rest : Config) (ns : Nodes)
    (p : Bool) :
    passOnce ((name, spec) :: rest) ns p =
      if containsName ns name then passOnce rest ns p
      else if spec.effType = "derived" then
        if (spec.depNames).all (containsName ns) then
          match RuleFactory.create spec.ruleName spec.ruleParams with
          | .error e => ⟨ns, p, some e⟩
          | .ok r =>
            passOnce rest (ns ++ [⟨name, Status.unknown, some r, spec.depNames⟩]) true
        else passOnce rest ns p
      else passOnce rest ns p := rfl

lemma buildLoop_succ (cfgs : Config) (fuel : Nat) (ns : Nodes) :
    buildLoop cfgs (fuel + 1) ns =
      match passOnce cfgs ns false with
      | ⟨nodes2, _, some e⟩ => (nodes2, some e)
      | ⟨nodes2, true, none⟩ => buildLoop cfgs fuel nodes2
      | ⟨nodes2, false, none⟩ => (nodes2, none) := rfl

lemma containsName_iff (ns : Nodes) (d : String) :
    containsName ns d = true ↔ d ∈ namesOf ns := by
  simp [containsName, List.any_eq_true, namesOf, List.mem_map]

lemma containsName_append (ns ext : Nodes) (d : String) :
    containsName (ns ++ ext) d = (containsName ns d || containsName ext d) := by
  simp [containsName, List.any_append]

lemma containsName_append_left {ns : Nodes} {d : String} (ext : Nodes)
    (h : containsName ns d = true) : containsName (ns ++ ext) d = true := by
  rw [containsName_append, h, Bool.true_or]

lemma passOnce_prefix (cfgs : Config) (ns : Nodes) (p : Bool) :
    ∃ ext, (passOnce cfgs ns p).nodes = ns ++ ext := by
  induction cfgs generalizing ns p with
  | nil => exact ⟨[], (List.append_nil ns).symm⟩
  | cons hd rest ih =>
    obtain ⟨name, spec⟩ := hd
    rw [passOnce_cons]
    split
    · exact ih ns p
    · split
      · split
        · rcases hc : RuleFactory.create spec.ruleName spec.ruleParams with e | r
          · exact ⟨[], (List.append_nil ns).symm⟩
          · obtain ⟨ext, he⟩ :=
              ih (ns ++ [⟨name, Status.unknown, some r, spec.depNames⟩]) true
            exact ⟨⟨name, Status.unknown, some r, spec.depNames⟩ :: ext, by
              simpa [List.append_assoc] using he⟩
        · exact ih ns p
      · exact ih ns p

lemma leafPass_prefix (cfgs : Config) (ns : Nodes) :
    ∃ ext, leafPass cfgs ns = ns ++ ext := by
  induction cfgs generalizing ns with
  | nil => exact ⟨[], (List.append_nil ns).symm⟩
  | cons hd rest ih =>
    obtain ⟨name, spec⟩ := hd
    rw [leafPass_cons]
    split
    · obtain ⟨ext, he⟩ := ih (ns ++ [⟨name, Status.unknown, none, []⟩])
      refine ⟨⟨name, Status.unknown, none, []⟩ :: ext, ?_⟩
      rw [he, List.append_assoc]
      rfl
    · exact ih ns

lemma buildLoop_prefix (cfgs : Config) (fuel : Nat) (ns : Nodes) :
    ∃ ext, (buildLoop cfgs fuel ns).1 = ns ++ ext := by
  induction fuel generalizing ns with
  | zero => exact ⟨[], (List.append_nil ns).symm⟩
  | succ fuel ih =>
    rw [buildLoop_succ]
    rcases hp : passOnce cfgs ns false with ⟨ns2, prog, err⟩
    obtain ⟨ext1, he1⟩ := passOnce_prefix cfgs ns false
    rw [hp] at he1
    simp only at he1
    subst he1
    cases err with
    | some e => cases prog <;> exact ⟨ext1, rfl⟩
    | none =>
      cases prog with
      | true =>
        obtain ⟨ext2, he2⟩ := ih (ns ++ ext1)
        exact ⟨ext1 ++ ext2, by rw [he2, List.append_assoc]⟩
      | false => exact ⟨ext1, rfl⟩

lemma load_config_nodes (cfg : Config) :
    (load_config cfg).1 = (buildLoop cfg (cfg.length + 1) (leafPass cfg [])).1 := by
  simp only [load_config]
  rcases h : buildLoop cfg (cfg.length + 1) (leafPass cfg []) with ⟨nodes, err⟩
  cases err with
  | some e => rfl
  | none =>
    simp only
    split <;> rfl

lemma leafPass_mono {ns : Nodes} {d : String} (cfgs : Config)
    (h : containsName ns d = true) : containsName (leafPass cfgs ns) d = true := by
  obtain ⟨ext, he⟩ := leafPass_prefix cfgs ns
  rw [he]; exact containsName_append_left ext h

lemma buildLoop_mono {ns : Nodes} {d : String} (cfgs : Config) (fuel : Nat)
    (h : containsName ns d = true) :
    containsName (buildLoop cfgs fuel ns).1 d = true := by
  obtain ⟨ext, he⟩ := buildLoop_prefix cfgs fuel ns
  rw [he]; exact containsName_append_left ext h

lemma leafPass_contains {cfgs : Config} {name : String} {spec : NodeSpec} (ns : Nodes)
    (hmem : (name, spec) ∈ cfgs) (himp : spec.effType = "imported") :
    containsName (leafPass cfgs ns) name = true := by
  induction cfgs generalizing ns with
  | nil => cases hmem
  | cons hd rest ih =>
    obtain ⟨n0, s0⟩ := hd
    rcases List.mem_cons.mp hmem with heq | hmem2
    · injection heq with h1 h2
      subst h1; subst h2
      rw [leafPass_cons, if_pos himp]
      exact leafPass_mono rest (by simp [containsName, List.any_append])
    · rw [leafPass_cons]
      split
      · exact ih _ hmem2
      · exact ih _ hmem2

lemma findNode_isSome (ns : Nodes) (d : String) :
    (findNode ns d).isSome = containsName ns d := by
  rw [Bool.eq_iff_iff, findNode, containsName, List.find?_isSome, List.any_eq_true]

/-! ## Claim theorems: build atomicity (C1) -/

/-- Counterexample to C1 at the concrete description
`{a: imported, b: derived(deps=[c])}`: the build fails with the structural error, yet
the node `a` created during that failed build is observable — `get_status` returns its
status and `set_status` succeeds on it. -/
theorem build_not_atomic_cex :
    (load_config cfgDangling).2 = some structuralMsg ∧
    containsName (load_config cfgDangling).1 "a" = true ∧
    get_status (load_config cfgDangling).1 "a" = some Status.unknown ∧
    (set_status (load_config cfgDangling).1 "a" Status.green).2 = none := by
  refine ⟨?_, ?_, ?_, ?_⟩ <;> decide

/-- C1 amended: construction is not atomic. `load_config` mutates the engine's node map
in place, so after a failed build the nodes created before the failure remain; in
particular the node of every imported (leaf) specification of the description — created
in the first phase, before any failure point — stays observable on that engine instance:
it exists, `get_status` returns a value for it, and `set_status` on it succeeds. -/
theorem build_failure_exposes_leaves (cfg : Config) (name : String) (spec : NodeSpec)
    (v : Status) (hmem : (name, spec) ∈ cfg) (himp : spec.effType = "imported") :
    containsName (load_config cfg).1 name = true ∧
    (get_status (load_config cfg).1 name).isSome = true ∧
    (set_status (load_config cfg).1 name v).2 = none := by
  have hc : containsName (load_config cfg).1 name = true := by
    rw [load_config_nodes]
    exact buildLoop_mono cfg _ (leafPass_contains [] hmem himp)
  refine ⟨hc, ?_, ?_⟩
  · rw [get_status, Option.isSome_map', findNode_isSome]
    exact hc
  · rw [set_status, if_pos hc]

/-- Witness for `build_failure_exposes_leaves` at the description `cfgDangling` (whose
build fails, by `build_not_atomic_cex`) and its leaf specification `a`. -/
theorem build_failure_exposes_leaves_witness :
    ("a", ({ type := some "imported" } : NodeSpec)) ∈ cfgDangling ∧
    ({ type := some "imported" } : NodeSpec).effType = "imported" ∧
    (containsName (load_config cfgDangling).1 "a" = true ∧
      (get_status (load_config cfgDangling).1 "a").isSome = true ∧
      (set_status (load_config cfgDangling).1 "a" Status.red).2 = none) :=
  ⟨List.mem_cons_self _ _, by decide,
    build_failure_exposes_leaves cfgDangling "a" { type := some "imported" } Status.red
      (List.mem_cons_self _ _) (by decide)⟩
/-! ## Fixed-point machinery for the derived phase -/

lemma passOnce_skip_contains {ns : Nodes} {name : String} (spec : NodeSpec)
    (rest : Config) (p : Bool) (h : containsName ns name = true) :
    passOnce ((name, spec) :: rest) ns p = passOnce rest ns p := by
  rw [passOnce_cons, if_pos h]

lemma passOnce_skip_type {ns : Nodes} {name : String} {spec : NodeSpec} (rest : Config)
    (p : Bool) (h : containsName ns name = false)
    (ht : ¬ spec.effType = "derived") :
    passOnce ((name, spec) :: rest) ns p = passOnce rest ns p := by
  rw [passOnce_cons, if_neg (by simp [h]), if_neg ht]

lemma passOnce_skip_deps {ns : Nodes} {name : String} {spec : NodeSpec} (rest : Config)
    (p : Bool) (h : containsName ns name = false) (ht : spec.effType = "derived")
    (hd : ¬ (spec.depNames).all (containsName ns) = true) :
    passOnce ((name, spec) :: rest) ns p = passOnce rest ns p := by
  rw [passOnce_cons, if_neg (by simp [h]), if_pos ht, if_neg hd]

lemma passOnce_step_err {ns : Nodes} {name : String} {spec : NodeSpec} {e : String}
    (rest : Config) (p : Bool) (h : containsName ns name = false)
    (ht : spec.effType = "derived") (hd : (spec.depNames).all (containsName ns) = true)
    (hc : RuleFactory.create spec.ruleName spec.ruleParams = Except.error e) :
    passOnce ((name, spec) :: rest) ns p = ⟨ns, p, some e⟩ := by
  rw [passOnce_cons, if_neg (by simp [h]), if_pos ht, if_pos hd, hc]

lemma passOnce_step_ok {ns : Nodes} {name : String} {spec : NodeSpec} {r : Rule}
    (rest : Config) (p : Bool) (h : containsName ns name = false)
    (ht : spec.effType = "derived") (hd : (spec.depNames).all (containsName ns) = true)
    (hc : RuleFactory.create spec.ruleName spec.ruleParams = Except.ok r) :
    passOnce ((name, spec) :: rest) ns p =
      passOnce rest (ns ++ [⟨name, Status.unknown, some r, spec.depNames⟩]) true := by
  rw [passOnce_cons, if_neg (by simp [h]), if_pos ht, if_pos hd, hc]

lemma passOnce_progress_mono (cfgs : Config) (ns : Nodes) :
    (passOnce cfgs ns true).progress = true := by
  induction cfgs generalizing ns with
  | nil => rfl
  | cons hd rest ih =>
    obtain ⟨n0, s0⟩ := hd
    by_cases h1 : containsName ns n0 = true
    · rw [passOnce_skip_contains s0 rest true h1]; exact ih ns
    · have h1' : containsName ns n0 = false := by
        cases hcb : containsName ns n0
        · rfl
        · exact absurd hcb h1
      by_cases ht : s0.effType = "derived"
      · by_cases hd2 : (s0.depNames).all (containsName ns) = true
        · rcases hc : RuleFactory.create s0.ruleName s0.ruleParams with e | r
          · rw [passOnce_step_err rest true h1' ht hd2 hc]
          · rw [passOnce_step_ok rest true h1' ht hd2 hc]; exact ih _
        · rw [passOnce_skip_deps rest true h1' ht hd2]; exact ih ns
      · rw [passOnce_skip_type rest true h1' ht]; exact ih ns

lemma passOnce_fix_nodes (cfgs : Config) (ns : Nodes)
    (hfix : (passOnce cfgs ns false).progress = false) :
    (passOnce cfgs ns false).nodes = ns := by
  induction cfgs generalizing ns with
  | nil => rfl
  | cons hd rest ih =>
    obtain ⟨n0, s0⟩ := hd
    by_cases h1 : containsName ns n0 = true
    · rw [passOnce_skip_contains s0 rest false h1] at hfix ⊢; exact ih ns hfix
    · have h1' : containsName ns n0 = false := by
        cases hcb : containsName ns n0
        · rfl
        · exact absurd hcb h1
      by_cases ht : s0.effType = "derived"
      · by_cases hd2 : (s0.depNames).all (containsName ns) = true
        · rcases hc : RuleFactory.create s0.ruleName s0.ruleParams with e | r
          · rw [passOnce_step_err rest false h1' ht hd2 hc]
          · rw [passOnce_step_ok rest false h1' ht hd2 hc] at hfix
            rw [passOnce_progress_mono rest _] at hfix
            cases hfix
        · rw [passOnce_skip_deps rest false h1' ht hd2] at hfix ⊢; exact ih ns hfix
      · rw [passOnce_skip_type rest false h1' ht] at hfix ⊢; exact ih ns hfix

lemma passOnce_growth (cfgs : Config) (ns : Nodes)
    (hprog : (passOnce cfgs ns false).progress = true)
    (herr : (passOnce cfgs ns false).error = none) :
    ns.length < (passOnce cfgs ns false).nodes.length := by
  induction cfgs generalizing ns with
  | nil => cases hprog
  | cons hd rest ih =>
    obtain ⟨n0, s0⟩ := hd
    by_cases h1 : containsName ns n0 = true
    · rw [passOnce_skip_contains s0 rest false h1] at hprog herr ⊢
      exact ih ns hprog herr
    · have h1' : containsName ns n0 = false := by
        cases hcb : containsName ns n0
        · rfl
        · exact absurd hcb h1
      by_cases ht : s0.effType = "derived"
      · by_cases hd2 : (s0.depNames).all (containsName ns) = true
        · rcases hc : RuleFactory.create s0.ruleName s0.ruleParams with e | r
          · rw [passOnce_step_err rest false h1' ht hd2 hc] at herr
            cases herr
          · rw [passOnce_step_ok rest false h1' ht hd2 hc]
            obtain ⟨ext, he⟩ :=
              passOnce_prefix rest (ns ++ [⟨n0, Status.unknown, some r, s0.depNames⟩]) true
            rw [he]
            simp
        · rw [passOnce_skip_deps rest false h1' ht hd2] at hprog herr ⊢
          exact ih ns hprog herr
      · rw [passOnce_skip_type rest false h1' ht] at hprog herr ⊢
        exact ih ns hprog herr

lemma passOnce_stuck (cfgs : Config) (ns : Nodes)
    (hfix : (passOnce cfgs ns false).progress = false)
    (herr : (passOnce cfgs ns false).error = none) :
    ∀ name spec, (name, spec) ∈ cfgs → containsName ns name = false →
      spec.effType = "derived" → ¬ ((spec.depNames).all (containsName ns) = true) := by
  induction cfgs generalizing ns with
  | nil => intro name spec hmem; cases hmem
  | cons hd rest ih =>
    obtain ⟨n0, s0⟩ := hd
    intro name spec hmem hn hder
    by_cases h1 : containsName ns n0 = true
    · rw [passOnce_skip_contains s0 rest false h1] at hfix herr
      rcases List.mem_cons.mp hmem with heq | hmem2
      · injection heq with ha hb
        subst ha; subst hb
        rw [h1] at hn; cases hn
      · exact ih ns hfix herr name spec hmem2 hn hder
    · have h1' : containsName ns n0 = false := by
        cases hcb : containsName ns n0
        · rfl
        · exact absurd hcb h1
      by_cases ht : s0.effType = "derived"
      · by_cases hd2 : (s0.depNames).all (containsName ns) = true
        · rcases hc : RuleFactory.create s0.ruleName s0.ruleParams with e | r
          · rw [passOnce_step_err rest false h1' ht hd2 hc] at herr
            cases herr
          · rw [passOnce_step_ok rest false h1' ht hd2 hc] at hfix
            rw [passOnce_progress_mono rest _] at hfix
            cases hfix
        · rw [passOnce_skip_deps rest false h1' ht hd2] at hfix herr
          rcases List.mem_cons.mp hmem with heq | hmem2
          · injection heq with ha hb
            subst ha; subst hb
            exact hd2
          · exact ih ns hfix herr name spec hmem2 hn hder
      · rw [passOnce_skip_type rest false h1' ht] at hfix herr
        rcases List.mem_cons.mp hmem with heq | hmem2
        · injection heq with ha hb
          subst ha; subst hb
          exact absurd hder ht
        · exact ih ns hfix herr name spec hmem2 hn hder

lemma bool_false_of_not_true {b : Bool} (h : ¬ b = true) : b = false := by
  cases b
  · rfl
  · exact absurd rfl h

lemma namesOf_append (a b : Nodes) : namesOf (a ++ b) = namesOf a ++ namesOf b := by
  simp [namesOf]

lemma keysOf_cons (n0 : String) (s0 : NodeSpec) (rest : Config) :
    keysOf ((n0, s0) :: rest) = n0 :: keysOf rest := rfl

lemma not_mem_names_of_not_contains {ns : Nodes} {d : String}
    (h : containsName ns d = false) : d ∉ namesOf ns := by
  intro hm
  rw [← containsName_iff] at hm
  rw [h] at hm
  cases hm

lemma passOnce_names_sub (cfgs : Config) (ns : Nodes) (p : Bool) :
    ∀ x ∈ namesOf (passOnce cfgs ns p).nodes, x ∈ namesOf ns ∨ x ∈ keysOf cfgs := by
  induction cfgs generalizing ns p with
  | nil => intro x hx; exact Or.inl hx
  | cons hd rest ih =>
    obtain ⟨n0, s0⟩ := hd
    intro x hx
    by_cases h1 : containsName ns n0 = true
    · rw [passOnce_skip_contains s0 rest p h1] at hx
      rcases ih ns p x hx with h | h
      · exact Or.inl h
      · exact Or.inr (List.mem_cons_of_mem _ h)
    · have h1' := bool_false_of_not_true h1
      by_cases ht : s0.effType = "derived"
      · by_cases hd2 : (s0.depNames).all (containsName ns) = true
        · rcases hc : RuleFactory.create s0.ruleName s0.ruleParams with e | r
          · rw [passOnce_step_err rest p h1' ht hd2 hc] at hx
            exact Or.inl hx
          · rw [passOnce_step_ok rest p h1' ht hd2 hc] at hx
            rcases ih _ true x hx with h | h
            · rw [namesOf_append] at h
              rcases List.mem_append.mp h with h | h
              · exact Or.inl h
              · simp only [namesOf, List.map_cons, List.map_nil,
                  List.mem_singleton] at h
                subst h
                exact Or.inr (List.mem_cons_self _ _)
            · exact Or.inr (List.mem_cons_of_mem _ h)
        · rw [passOnce_skip_deps rest p h1' ht hd2] at hx
          rcases ih ns p x hx with h | h
          · exact Or.inl h
          · exact Or.inr (List.mem_cons_of_mem _ h)
      · rw [passOnce_skip_type rest p h1' ht] at hx
        rcases ih ns p x hx with h | h
        · exact Or.inl h
        · exact Or.inr (List.mem_cons_of_mem _ h)

lemma leafPass_names_sub (cfgs : Config) (ns : Nodes) :
    ∀ x ∈ namesOf (leafPass cfgs ns), x ∈ namesOf ns ∨ x ∈ keysOf cfgs := by
  induction cfgs generalizing ns with
  | nil => intro x hx; exact Or.inl hx
  | cons hd rest ih =>
    obtain ⟨n0, s0⟩ := hd
    intro x hx
    rw [leafPass_cons] at hx
    split at hx
    · rcases ih _ x hx with h | h
      · rw [namesOf_append] at h
        rcases List.mem_append.mp h with h | h
        · exact Or.inl h
        · simp only [namesOf, List.map_cons, List.map_nil, List.mem_singleton] at h
          subst h
          exact Or.inr (List.mem_cons_self _ _)
      · exact Or.inr (List.mem_cons_of_mem _ h)
    · rcases ih ns x hx with h | h
      · exact Or.inl h
      · exact Or.inr (List.mem_cons_of_mem _ h)

lemma buildLoop_names_sub (cfgs : Config) (fuel : Nat) (ns : Nodes) :
    ∀ x ∈ namesOf (buildLoop cfgs fuel ns).1, x ∈ namesOf ns ∨ x ∈ keysOf cfgs := by
  induction fuel generalizing ns with
  | zero => intro x hx; exact Or.inl hx
  | succ fuel ih =>
    intro x hx
    rw [buildLoop_succ] at hx
    rcases hp : passOnce cfgs ns false with ⟨ns2, prog, perr⟩
    rw [hp] at hx
    have hsub2 : ∀ y ∈ namesOf ns2, y ∈ namesOf ns ∨ y ∈ keysOf cfgs := by
      intro y hy
      have := passOnce_names_sub cfgs ns false y
      rw [hp] at this
      exact this hy
    cases perr with
    | some e => cases prog <;> exact hsub2 x hx
    | none =>
      cases prog with
      | true =>
        rcases ih ns2 x hx with h | h
        · exact hsub2 x h
        · exact Or.inr h
      | false => exact hsub2 x hx

lemma passOnce_nodup (cfgs : Config) (ns : Nodes) (p : Bool)
    (h : (namesOf ns).Nodup) : (namesOf (passOnce cfgs ns p).nodes).Nodup := by
  induction cfgs generalizing ns p with
  | nil => exact h
  | cons hd rest ih =>
    obtain ⟨n0, s0⟩ := hd
    by_cases h1 : containsName ns n0 = true
    · rw [passOnce_skip_contains s0 rest p h1]; exact ih ns p h
    · have h1' := bool_false_of_not_true h1
      by_cases ht : s0.effType = "derived"
      · by_cases hd2 : (s0.depNames).all (containsName ns) = true
        · rcases hc : RuleFactory.create s0.ruleName s0.ruleParams with e | r
          · rw [passOnce_step_err rest p h1' ht hd2 hc]; exact h
          · rw [passOnce_step_ok rest p h1' ht hd2 hc]
            refine ih _ true ?_
            rw [namesOf_append]
            refine List.Nodup.append h (List.nodup_singleton _) ?_
            intro a ha hb
            simp only [namesOf, List.map_cons, List.map_nil, List.mem_singleton] at hb
            subst hb
            exact not_mem_names_of_not_contains h1' ha
        · rw [passOnce_skip_deps rest p h1' ht hd2]; exact ih ns p h
      · rw [passOnce_skip_type rest p h1' ht]; exact ih ns p h

lemma leafPass_nodup (cfgs : Config) (ns : Nodes) (hk : (keysOf cfgs).Nodup)
    (h : (namesOf ns).Nodup) (hdisj : ∀ k ∈ keysOf cfgs, k ∉ namesOf ns) :
    (namesOf (leafPass cfgs ns)).Nodup := by
  induction cfgs generalizing ns with
  | nil => exact h
  | cons hd rest ih =>
    obtain ⟨n0, s0⟩ := hd
    rw [keysOf_cons] at hk hdisj
    rw [leafPass_cons]
    split
    · refine ih _ (List.Nodup.of_cons hk) ?_ ?_
      · rw [namesOf_append]
        refine List.Nodup.append h (List.nodup_singleton _) ?_
        intro a ha hb
        simp only [namesOf, List.map_cons, List.map_nil, List.mem_singleton] at hb
        subst hb
        exact hdisj a (List.mem_cons_self _ _) ha
      · intro k hk2
        rw [namesOf_append]
        intro hmem
        rcases List.mem_append.mp hmem with hmem | hmem
        · exact hdisj k (List.mem_cons_of_mem _ hk2) hmem
        · simp only [namesOf, List.map_cons, List.map_nil, List.mem_singleton] at hmem
          subst hmem
          exact (List.nodup_cons.mp hk).1 hk2
    · exact ih ns (List.Nodup.of_cons hk) h
        (fun k hk2 => hdisj k (List.mem_cons_of_mem _ hk2))

lemma buildLoop_nodup (cfgs : Config) (fuel : Nat) (ns : Nodes)
    (h : (namesOf ns).Nodup) : (namesOf (buildLoop cfgs fuel ns).1).Nodup := by
  induction fuel generalizing ns with
  | zero => exact h
  | succ fuel ih =>
    rw [buildLoop_succ]
    rcases hp : passOnce cfgs ns false with ⟨ns2, prog, perr⟩
    have h2 : (namesOf ns2).Nodup := by
      have := passOnce_nodup cfgs ns false h
      rw [hp] at this
      exact this
    cases perr with
    | some e => cases prog <;> exact h2
    | none =>
      cases prog with
      | true => exact ih ns2 h2
      | false => exact h2

lemma nodes_length_le (ns : Nodes) (cfg : Config) (hnd : (namesOf ns).Nodup)
    (hsub : ∀ x ∈ namesOf ns, x ∈ keysOf cfg) : ns.length ≤ cfg.length := by
  have h1 : (namesOf ns).length ≤ (keysOf cfg).length :=
    (List.subperm_of_subset hnd hsub).length_le
  simpa [namesOf, keysOf] using h1

lemma passOnce_no_error (cfgs : Config) (ns : Nodes) (p : Bool)
    (hrules : ∀ pr ∈ cfgs, pr.2.effType = "derived" →
      (RuleFactory.create pr.2.ruleName pr.2.ruleParams).isOk = true) :
    (passOnce cfgs ns p).error = none := by
  induction cfgs generalizing ns p with
  | nil => rfl
  | cons hd rest ih =>
    obtain ⟨n0, s0⟩ := hd
    have hrest : ∀ pr ∈ rest, pr.2.effType = "derived" →
        (RuleFactory.create pr.2.ruleName pr.2.ruleParams).isOk = true :=
      fun pr hpr => hrules pr (List.mem_cons_of_mem _ hpr)
    by_cases h1 : containsName ns n0 = true
    · rw [passOnce_skip_contains s0 rest p h1]; exact ih ns p hrest
    · have h1' := bool_false_of_not_true h1
      by_cases ht : s0.effType = "derived"
      · by_cases hd2 : (s0.depNames).all (containsName ns) = true
        · rcases hc : RuleFactory.create s0.ruleName s0.ruleParams with e | r
          · have hok := hrules (n0, s0) (List.mem_cons_self _ _) ht
            rw [hc] at hok
            simp [Except.isOk, Except.toBool] at hok
          · rw [passOnce_step_ok rest p h1' ht hd2 hc]; exact ih _ true hrest
        · rw [passOnce_skip_deps rest p h1' ht hd2]; exact ih ns p hrest
      · rw [passOnce_skip_type rest p h1' ht]; exact ih ns p hrest

lemma buildLoop_no_error (cfgs : Config) (fuel : Nat) (ns : Nodes)
    (hrules : ∀ pr ∈ cfgs, pr.2.effType = "derived" →
      (RuleFactory.create pr.2.ruleName pr.2.ruleParams).isOk = true) :
    (buildLoop cfgs fuel ns).2 = none := by
  induction fuel generalizing ns with
  | zero => rfl
  | succ fuel ih =>
    rw [buildLoop_succ]
    rcases hp : passOnce cfgs ns false with ⟨ns2, prog, perr⟩
    have hperr : perr = none := by
      have h := passOnce_no_error cfgs ns false hrules
      rw [hp] at h
      exact h
    subst hperr
    cases prog with
    | true => exact ih ns2
    | false => rfl

lemma buildLoop_reaches_fix (cfgs : Config) (fuel : Nat) (ns : Nodes)
    (hnd : (namesOf ns).Nodup)
    (hsub : ∀ x ∈ namesOf ns, x ∈ keysOf cfgs)
    (hfuel : cfgs.length < fuel + ns.length)
    (herr : (buildLoop cfgs fuel ns).2 = none) :
    (passOnce cfgs (buildLoop cfgs fuel ns).1 false).progress = false ∧
    (passOnce cfgs (buildLoop cfgs fuel ns).1 false).error = none := by
  induction fuel generalizing ns with
  | zero =>
    exfalso
    have hle := nodes_length_le ns cfgs hnd hsub
    omega
  | succ fuel ih =>
    rw [buildLoop_succ] at herr ⊢
    rcases hp : passOnce cfgs ns false with ⟨ns2, prog, perr⟩
    rw [hp] at herr
    have hnd2 : (namesOf ns2).Nodup := by
      have h := passOnce_nodup cfgs ns false hnd
      rw [hp] at h
      exact h
    have hsub2 : ∀ x ∈ namesOf ns2, x ∈ keysOf cfgs := by
      intro x hx
      have h := passOnce_names_sub cfgs ns false x
      rw [hp] at h
      rcases h hx with h | h
      · exact hsub x h
      · exact h
    cases perr with
    | some e =>
      exfalso
      cases prog <;> exact Option.noConfusion herr
    | none =>
      cases prog with
      | true =>
        have hgrow : ns.length < ns2.length := by
          have h := passOnce_growth cfgs ns
            (by rw [hp]) (by rw [hp])
          rw [hp] at h
          exact h
        exact ih ns2 hnd2 hsub2 (by omega) herr
      | false =>
        have hfix : ns2 = ns := by
          have h := passOnce_fix_nodes cfgs ns (by rw [hp])
          rw [hp] at h
          exact h
        subst hfix
        refine ⟨?_, ?_⟩
        · show (passOnce cfgs ns2 false).progress = false
          rw [hp]
        · show (passOnce cfgs ns2 false).error = none
          rw [hp]

lemma load_config_eq_of_no_error (cfg : Config)
    (hB : (buildLoop cfg (cfg.length + 1) (leafPass cfg [])).2 = none) :
    load_config cfg =
      (if (buildLoop cfg (cfg.length + 1) (leafPass cfg [])).1.length ≠ cfg.length
        then ((buildLoop cfg (cfg.length + 1) (leafPass cfg [])).1, some structuralMsg)
        else ((buildLoop cfg (cfg.length + 1) (leafPass cfg [])).1, none)) := by
  simp only [load_config]
  rcases hB2 : buildLoop cfg (cfg.length + 1) (leafPass cfg []) with ⟨nodes, err⟩
  rw [hB2] at hB
  simp only at hB
  subst hB
  rfl

/-- Summary of a build whose rule names all resolve: the result is the fixed point of
the derived phase, its names are distinct (given distinct description keys) and drawn
from the description keys, and the structural error is raised exactly when not every
specification got a node. -/
lemma load_config_spec (cfg : Config) (hk : (keysOf cfg).Nodup)
    (hrules : ∀ pr ∈ cfg, pr.2.effType = "derived" →
      (RuleFactory.create pr.2.ruleName pr.2.ruleParams).isOk = true) :
    ((load_config cfg).2 = some structuralMsg ↔ (load_config cfg).1.length ≠ cfg.length) ∧
    (passOnce cfg (load_config cfg).1 false).progress = false ∧
    (passOnce cfg (load_config cfg).1 false).error = none ∧
    (namesOf (load_config cfg).1).Nodup ∧
    (∀ x ∈ namesOf (load_config cfg).1, x ∈ keysOf cfg) := by
  have hndL : (namesOf (leafPass cfg [])).Nodup := by
    refine leafPass_nodup cfg [] hk (by simp [namesOf]) ?_
    intro k hk2
    simp [namesOf]
  have hsubL : ∀ x ∈ namesOf (leafPass cfg []), x ∈ keysOf cfg := by
    intro x hx
    rcases leafPass_names_sub cfg [] x hx with h | h
    · simp [namesOf] at h
    · exact h
  have hB : (buildLoop cfg (cfg.length + 1) (leafPass cfg [])).2 = none :=
    buildLoop_no_error cfg _ _ hrules
  have hfixed := buildLoop_reaches_fix cfg (cfg.length + 1) (leafPass cfg [])
    hndL hsubL (by omega) hB
  have hndB : (namesOf (buildLoop cfg (cfg.length + 1) (leafPass cfg [])).1).Nodup :=
    buildLoop_nodup cfg _ _ hndL
  have hsubB : ∀ x ∈ namesOf (buildLoop cfg (cfg.length + 1) (leafPass cfg [])).1,
      x ∈ keysOf cfg := by
    intro x hx
    rcases buildLoop_names_sub cfg (cfg.length + 1) (leafPass cfg []) x hx with h | h
    · exact hsubL x h
    · exact h
  rw [load_config_eq_of_no_error cfg hB]
  split
  next h => exact ⟨by simp [h], hfixed.1, hfixed.2, hndB, hsubB⟩
  next h => exact ⟨by simp [h], hfixed.1, hfixed.2, hndB, hsubB⟩

lemma mem_keysOf_of_mem {cfg : Config} {name : String} {spec : NodeSpec}
    (h : (name, spec) ∈ cfg) : name ∈ keysOf cfg := by
  exact List.mem_map_of_mem Prod.fst h

lemma nodup_keys_unique {cfg : Config} (hk : (keysOf cfg).Nodup) {n : String}
    {s1 s2 : NodeSpec} (h1 : (n, s1) ∈ cfg) (h2 : (n, s2) ∈ cfg) : s1 = s2 := by
  induction cfg with
  | nil => cases h1
  | cons hd rest ih =>
    obtain ⟨n0, s0⟩ := hd
    rw [keysOf_cons] at hk
    rcases List.mem_cons.mp h1 with he1 | hm1 <;> rcases List.mem_cons.mp h2 with he2 | hm2
    · injection he1 with a1 b1
      injection he2 with a2 b2
      rw [b1, b2]
    · injection he1 with a1 b1
      subst a1
      exact absurd (mem_keysOf_of_mem hm2) (List.nodup_cons.mp hk).1
    · injection he2 with a2 b2
      subst a2
      exact absurd (mem_keysOf_of_mem hm1) (List.nodup_cons.mp hk).1
    · exact ih (List.Nodup.of_cons hk) hm1 hm2

lemma cycle_step {cfg : Config} {m : String}
    (h : Relation.TransGen (depEdge cfg) m m) :
    ∃ spec, (m, spec) ∈ cfg ∧ spec.effType = "derived" ∧
      ∃ d ∈ spec.depNames, Relation.TransGen (depEdge cfg) d d := by
  rcases (Relation.TransGen.head'_iff).mp h with ⟨b, hmb, hbm⟩
  obtain ⟨spec, hmem, hder, hdep⟩ := hmb
  exact ⟨spec, hmem, hder, b, hdep,
    Relation.TransGen.tail' hbm ⟨spec, hmem, hder, hdep⟩⟩

lemma containsName_singleton (x : StatusNode) (d : String) :
    containsName [x] d = decide (x.name = d) := by
  simp [containsName]

lemma passOnce_blocked (cfg : Config) (B : String → Prop) (hB : Blocked cfg B)
    (cfgs : Config) (ns : Nodes) (p : Bool) (hcfgs : ∀ pr ∈ cfgs, pr ∈ cfg)
    (hsub : ∀ x ∈ namesOf ns, x ∈ keysOf cfg)
    (hfree : ∀ b, B b → containsName ns b = false) :
    (∀ x ∈ namesOf (passOnce cfgs ns p).nodes, x ∈ keysOf cfg) ∧
    (∀ b, B b → containsName (passOnce cfgs ns p).nodes b = false) := by
  induction cfgs generalizing ns p with
  | nil => exact ⟨hsub, hfree⟩
  | cons hd rest ih =>
    obtain ⟨n0, s0⟩ := hd
    have hrest : ∀ pr ∈ rest, pr ∈ cfg := fun pr hpr => hcfgs pr (List.mem_cons_of_mem _ hpr)
    have hhd : (n0, s0) ∈ cfg := hcfgs (n0, s0) (List.mem_cons_self _ _)
    by_cases h1 : containsName ns n0 = true
    · rw [passOnce_skip_contains s0 rest p h1]; exact ih ns p hrest hsub hfree
    · have h1' := bool_false_of_not_true h1
      by_cases ht : s0.effType = "derived"
      · by_cases hd2 : (s0.depNames).all (containsName ns) = true
        · rcases hc : RuleFactory.create s0.ruleName s0.ruleParams with e | r
          · rw [passOnce_step_err rest p h1' ht hd2 hc]; exact ⟨hsub, hfree⟩
          · rw [passOnce_step_ok rest p h1' ht hd2 hc]
            have hn0B : ¬ B n0 := by
              intro hBn0
              obtain ⟨_, d, hdmem, hcase⟩ := hB n0 s0 hBn0 hhd
              have hdc : containsName ns d = true :=
                List.all_eq_true.mp hd2 d hdmem
              rcases hcase with hBd | hdk
              · rw [hfree d hBd] at hdc; cases hdc
              · exact hdk (hsub d (containsName_iff ns d |>.mp hdc))
            refine ih _ true hrest ?_ ?_
            · intro x hx
              rw [namesOf_append] at hx
              rcases List.mem_append.mp hx with hx | hx
              · exact hsub x hx
              · simp only [namesOf, List.map_cons, List.map_nil,
                  List.mem_singleton] at hx
                subst hx
                exact mem_keysOf_of_mem hhd
            · intro b hBb
              rw [containsName_append, hfree b hBb, containsName_singleton]
              simp only [Bool.false_or, decide_eq_false_iff_not]
              intro he
              subst he
              exact hn0B hBb
        · rw [passOnce_skip_deps rest p h1' ht hd2]; exact ih ns p hrest hsub hfree
      · rw [passOnce_skip_type rest p h1' ht]; exact ih ns p hrest hsub hfree

lemma leafPass_blocked (cfg : Config) (B : String → Prop) (hB : Blocked cfg B)
    (hk : (keysOf cfg).Nodup)
    (cfgs : Config) (ns : Nodes) (hcfgs : ∀ pr ∈ cfgs, pr ∈ cfg)
    (hsub : ∀ x ∈ namesOf ns, x ∈ keysOf cfg)
    (hfree : ∀ b, B b → containsName ns b = false) :
    (∀ x ∈ namesOf (leafPass cfgs ns), x ∈ keysOf cfg) ∧
    (∀ b, B b → containsName (leafPass cfgs ns) b = false) := by
  induction cfgs generalizing ns with
  | nil => exact ⟨hsub, hfree⟩
  | cons hd rest ih =>
    obtain ⟨n0, s0⟩ := hd
    have hrest : ∀ pr ∈ rest, pr ∈ cfg := fun pr hpr => hcfgs pr (List.mem_cons_of_mem _ hpr)
    have hhd : (n0, s0) ∈ cfg := hcfgs (n0, s0) (List.mem_cons_self _ _)
    rw [leafPass_cons]
    split
    next himp =>
      have hn0B : ¬ B n0 := by
        intro hBn0
        obtain ⟨hder, _⟩ := hB n0 s0 hBn0 hhd
        rw [himp] at hder
        exact absurd hder (by decide)
      refine ih _ hrest ?_ ?_
      · intro x hx
        rw [namesOf_append] at hx
        rcases List.mem_append.mp hx with hx | hx
        · exact hsub x hx
        · simp only [namesOf, List.map_cons, List.map_nil, List.mem_singleton] at hx
          subst hx
          exact mem_keysOf_of_mem hhd
      · intro b hBb
        rw [containsName_append, hfree b hBb, containsName_singleton]
        simp only [Bool.false_or, decide_eq_false_iff_not]
        intro he
        subst he
        exact hn0B hBb
    next _ => exact ih ns hrest hsub hfree

lemma buildLoop_blocked (cfg : Config) (B : String → Prop) (hB : Blocked cfg B)
    (fuel : Nat) (ns : Nodes)
    (hsub : ∀ x ∈ namesOf ns, x ∈ keysOf cfg)
    (hfree : ∀ b, B b → containsName ns b = false) :
    ∀ b, B b → containsName (buildLoop cfg fuel ns).1 b = false := by
  induction fuel generalizing ns with
  | zero => exact hfree
  | succ fuel ih =>
    rw [buildLoop_succ]
    rcases hp : passOnce cfg ns false with ⟨ns2, prog, perr⟩
    obtain ⟨hsub2, hfree2⟩ :=
      passOnce_blocked cfg B hB cfg ns false (fun pr hpr => hpr) hsub hfree
    rw [hp] at hsub2 hfree2
    cases perr with
    | some e => cases prog <;> exact hfree2
    | none =>
      cases prog with
      | true => exact ih ns2 hsub2 hfree2
      | false => exact hfree2

/-- Any blocked name is absent from the `load_config` result. -/
lemma load_config_blocked (cfg : Config) (B : String → Prop) (hB : Blocked cfg B)
    (hk : (keysOf cfg).Nodup) :
    ∀ b, B b → containsName (load_config cfg).1 b = false := by
  intro b hBb
  rw [load_config_nodes]
  obtain ⟨hsubL, hfreeL⟩ := leafPass_blocked cfg B hB hk cfg [] (fun pr hpr => hpr)
    (by simp [namesOf]) (fun b _ => rfl)
  exact buildLoop_blocked cfg B hB _ _ hsubL hfreeL b hBb

lemma cycle_blocked (cfg : Config) (hk : (keysOf cfg).Nodup) :
    Blocked cfg (fun m => Relation.TransGen (depEdge cfg) m m) := by
  intro name spec hcyc hmem
  obtain ⟨spec0, hmem0, hder0, d, hdmem, hdcyc⟩ := cycle_step hcyc
  have hspec : spec0 = spec := nodup_keys_unique hk hmem0 hmem
  subst hspec
  exact ⟨hder0, d, hdmem, Or.inl hdcyc⟩

lemma dangling_blocked (cfg : Config) (hk : (keysOf cfg).Nodup)
    {nm : String} {spec : NodeSpec} {d : String} (hmem : (nm, spec) ∈ cfg)
    (hder : spec.effType = "derived") (hd : d ∈ spec.depNames)
    (hdk : d ∉ keysOf cfg) :
    Blocked cfg (fun m => m = nm) := by
  intro name spec2 hm hmem2
  subst hm
  have hspec : spec2 = spec := nodup_keys_unique hk hmem2 hmem
  subst hspec
  exact ⟨hder, d, hd, Or.inr hdk⟩

lemma uncreated_length (cfg : Config) (res : Nodes)
    (hnd : (namesOf res).Nodup) (hsub : ∀ x ∈ namesOf res, x ∈ keysOf cfg)
    {nm : String} (hnm : nm ∈ keysOf cfg) (hun : containsName res nm = false) :
    res.length ≠ cfg.length := by
  have hsub2 : namesOf res ⊆ (keysOf cfg).erase nm := by
    intro x hx
    have hxk := hsub x hx
    have hxne : x ≠ nm := by
      intro he
      subst he
      exact not_mem_names_of_not_contains hun hx
    exact (List.mem_erase_of_ne hxne).mpr hxk
  have hlen1 : (namesOf res).length ≤ ((keysOf cfg).erase nm).length :=
    (List.subperm_of_subset hnd hsub2).length_le
  have hlen2 : ((keysOf cfg).erase nm).length = (keysOf cfg).length - 1 :=
    List.length_erase_of_mem hnm
  have hpos : 0 < (keysOf cfg).length := List.length_pos_of_mem hnm
  have e1 : (namesOf res).length = res.length := by simp [namesOf]
  have e2 : (keysOf cfg).length = cfg.length := by simp [keysOf]
  omega

lemma created_all_length (cfg : Config) (res : Nodes) (hk : (keysOf cfg).Nodup)
    (hnd : (namesOf res).Nodup) (hsub : ∀ x ∈ namesOf res, x ∈ keysOf cfg)
    (hall : ∀ pr ∈ cfg, containsName res pr.1 = true) :
    res.length = cfg.length := by
  have h1 : keysOf cfg ⊆ namesOf res := by
    intro x hx
    obtain ⟨pr, hpr, hfst⟩ := List.mem_map.mp hx
    subst hfst
    exact (containsName_iff res pr.1).mp (hall pr hpr)
  have hle1 := (List.subperm_of_subset hnd hsub).length_le
  have hle2 := (List.subperm_of_subset hk h1).length_le
  have e1 : (namesOf res).length = res.length := by simp [namesOf]
  have e2 : (keysOf cfg).length = cfg.length := by simp [keysOf]
  omega

lemma uncreated_implies_cycle_or_dangling (cfg : Config)
    (htypes : ∀ pr ∈ cfg, pr.2.effType = "imported" ∨ pr.2.effType = "derived")
    (res : Nodes)
    (hstuck : ∀ name spec, (name, spec) ∈ cfg → containsName res name = false →
      spec.effType = "derived" → ¬ ((spec.depNames).all (containsName res) = true))
    (hleaf : ∀ name spec, (name, spec) ∈ cfg → spec.effType = "imported" →
      containsName res name = true)
    {nm : String} (hnm : nm ∈ keysOf cfg) (hun : containsName res nm = false) :
    HasCycle cfg ∨ HasDangling cfg := by
  by_cases hdang : HasDangling cfg
  · exact Or.inr hdang
  · left
    classical
    set U : Finset String :=
      (keysOf cfg).toFinset.filter (fun x => containsName res x = false) with hU
    have hmemU : ∀ x, x ∈ U ↔ x ∈ keysOf cfg ∧ containsName res x = false := by
      intro x
      rw [hU, Finset.mem_filter, List.mem_toFinset]
    have hstep : ∀ u ∈ U, ∃ v, v ∈ U ∧ depEdge cfg u v := by
      intro u hu
      rw [hmemU] at hu
      obtain ⟨huk, huc⟩ := hu
      obtain ⟨pr, hpr, hfst⟩ := List.mem_map.mp huk
      obtain ⟨un, spec⟩ := pr
      simp only at hfst
      subst hfst
      rcases htypes (un, spec) hpr with himp | hder
      · rw [hleaf un spec hpr himp] at huc
        cases huc
      · have hnall := hstuck un spec hpr huc hder
        have hexd : ∃ d ∈ spec.depNames, containsName res d = false := by
          by_contra hcon
          push_neg at hcon
          apply hnall
          rw [List.all_eq_true]
          intro d hd
          have hne := hcon d hd
          cases hcb : containsName res d
          · exact absurd hcb hne
          · rfl
        obtain ⟨d, hdmem, hdc⟩ := hexd
        by_cases hdk : d ∈ keysOf cfg
        · exact ⟨d, (hmemU d).mpr ⟨hdk, hdc⟩, ⟨spec, hpr, hder, hdmem⟩⟩
        · exact absurd ⟨un, spec, d, hpr, hder, hdmem, hdk⟩ hdang
    set F : String → String := fun u =>
      if h : ∃ v, v ∈ U ∧ depEdge cfg u v then h.choose else u with hFdef
    have hF : ∀ u ∈ U, F u ∈ U ∧ depEdge cfg u (F u) := by
      intro u hu
      have h := hstep u hu
      rw [hFdef]
      simp only [dif_pos h]
      exact h.choose_spec
    set g : Nat → String := fun k => F^[k] nm with hgdef
    have hnmU : nm ∈ U := (hmemU nm).mpr ⟨hnm, hun⟩
    have hgsucc : ∀ k, g (k + 1) = F (g k) := by
      intro k
      rw [hgdef]
      exact Function.iterate_succ_apply' F k nm
    have hgU : ∀ k, g k ∈ U := by
      intro k
      induction k with
      | zero => exact hnmU
      | succ k ihk =>
        rw [hgsucc k]
        exact (hF (g k) ihk).1
    have hedge : ∀ k, depEdge cfg (g k) (g (k + 1)) := by
      intro k
      rw [hgsucc k]
      exact (hF (g k) (hgU k)).2
    have hchain : ∀ b a, a < b → Relation.TransGen (depEdge cfg) (g a) (g b) := by
      intro b
      induction b with
      | zero => intro a ha; exact absurd ha (Nat.not_lt_zero a)
      | succ b ihb =>
        intro a ha
        rcases Nat.lt_succ_iff_lt_or_eq.mp ha with h | h
        · exact (ihb a h).tail (hedge b)
        · subst h
          exact Relation.TransGen.single (hedge a)
    have hmaps : ∀ k ∈ Finset.range (U.card + 1), g k ∈ U := fun k _ => hgU k
    have hcard : U.card < (Finset.range (U.card + 1)).card := by simp
    obtain ⟨i, hi, j, hj, hij, hgij⟩ :=
      Finset.exists_ne_map_eq_of_card_lt_of_maps_to hcard hmaps
    rcases Nat.lt_or_ge i j with h | h
    · have hc := hchain j i h
      rw [hgij] at hc
      exact ⟨g j, hc⟩
    · have hji : j < i := lt_of_le_of_ne h (Ne.symm hij)
      have hc := hchain i j hji
      rw [hgij] at hc
      exact ⟨g j, hc⟩

/-! ## Claim theorems: build failure condition (C6) -/

/-- C6: for a description with distinct keys, node types drawn from
imported/derived, and resolvable rule names, the build fails with the StructuralError
(the `"Failed to create all nodes"` exception of the final check, after the two-phase
fixed point) if and only if some specification remains uncreated, and that happens
exactly when the description contains a dependency cycle or a dependency reference to
an identity absent from the description. -/
theorem build_fails_iff_cycle_or_dangling (cfg : Config)
    (hk : (keysOf cfg).Nodup)
    (htypes : ∀ pr ∈ cfg, pr.2.effType = "imported" ∨ pr.2.effType = "derived")
    (hrules : ∀ pr ∈ cfg, pr.2.effType = "derived" →
      (RuleFactory.create pr.2.ruleName pr.2.ruleParams).isOk = true) :
    ((load_config cfg).2 = some structuralMsg ↔
      ∃ pr ∈ cfg, containsName (load_config cfg).1 pr.1 = false) ∧
    ((load_config cfg).2 = some structuralMsg ↔ HasCycle cfg ∨ HasDangling cfg) := by
  obtain ⟨hiff, hfixp, hfixe, hnd, hsub⟩ := load_config_spec cfg hk hrules
  have hstuck := passOnce_stuck cfg (load_config cfg).1 hfixp hfixe
  have hleaf : ∀ name spec, (name, spec) ∈ cfg → spec.effType = "imported" →
      containsName (load_config cfg).1 name = true := by
    intro n s hm hi
    rw [load_config_nodes]
    exact buildLoop_mono cfg _ (leafPass_contains [] hm hi)
  have hsubm : ∀ x ∈ namesOf (load_config cfg).1, x ∈ keysOf cfg := hsub
  have hA : (∃ pr ∈ cfg, containsName (load_config cfg).1 pr.1 = false) ↔
      (load_config cfg).1.length ≠ cfg.length := by
    constructor
    · rintro ⟨⟨n, s⟩, hm, hc⟩
      exact uncreated_length cfg _ hnd hsubm (mem_keysOf_of_mem hm) hc
    · intro hne
      by_contra hno
      push_neg at hno
      apply hne
      refine created_all_length cfg _ hk hnd hsubm ?_
      intro pr hpr
      have hnf := hno pr hpr
      cases hcb : containsName (load_config cfg).1 pr.1
      · exact absurd hcb hnf
      · rfl
  constructor
  · exact hiff.trans hA.symm
  · constructor
    · intro herr
      obtain ⟨⟨n, s⟩, hm, hc⟩ := hA.mpr (hiff.mp herr)
      exact uncreated_implies_cycle_or_dangling cfg htypes _ hstuck hleaf
        (mem_keysOf_of_mem hm) hc
    · intro hcd
      refine hiff.mpr (hA.mp ?_)
      rcases hcd with hc | hd
      · obtain ⟨m, hm⟩ := hc
        obtain ⟨spec, hmem, _, _⟩ := cycle_step hm
        have hblk := load_config_blocked cfg _ (cycle_blocked cfg hk) hk m hm
        exact ⟨(m, spec), hmem, hblk⟩
      · obtain ⟨n, spec, d, hmem, hder, hdm, hdk⟩ := hd
        have hblk := load_config_blocked cfg _
          (dangling_blocked cfg hk hmem hder hdm hdk) hk n rfl
        exact ⟨(n, spec), hmem, hblk⟩

/-- Witness for `build_fails_iff_cycle_or_dangling` at the concrete two-node cyclic
description `cfgCycle`. -/
theorem build_fails_iff_cycle_or_dangling_witness :
    (keysOf cfgCycle).Nodup ∧
    (∀ pr ∈ cfgCycle, pr.2.effType = "imported" ∨ pr.2.effType = "derived") ∧
    (∀ pr ∈ cfgCycle, pr.2.effType = "derived" →
      (RuleFactory.create pr.2.ruleName pr.2.ruleParams).isOk = true) ∧
    (((load_config cfgCycle).2 = some structuralMsg ↔
      ∃ pr ∈ cfgCycle, containsName (load_config cfgCycle).1 pr.1 = false) ∧
     ((load_config cfgCycle).2 = some structuralMsg ↔
      HasCycle cfgCycle ∨ HasDangling cfgCycle)) :=
  ⟨by decide, by decide, by decide,
    build_fails_iff_cycle_or_dangling cfgCycle (by decide) (by decide) (by decide)⟩

/-! ## Evaluation lemmas -/

lemma evalUpTo_succ (k : Nat) (ns : Nodes) :
    evalUpTo (k + 1) ns = stepNode (evalUpTo k ns) k := by
  unfold evalUpTo
  rw [List.range_succ, List.foldl_append]
  rfl

lemma stepNode_eq_of_oob {ns : Nodes} {i : Nat} (hn : ns[i]? = none) :
    stepNode ns i = ns := by
  unfold stepNode
  rw [hn]

lemma stepNode_eq_of_leaf {ns : Nodes} {i : Nat} {n : StatusNode}
    (hn : ns[i]? = some n) (hr : n.rule = none) : stepNode ns i = ns := by
  unfold stepNode
  rw [hn]
  dsimp only
  rw [hr]

lemma stepNode_eq_of_derived {ns : Nodes} {i : Nat} {n : StatusNode} {r : Rule}
    (hn : ns[i]? = some n) (hr : n.rule = some r) :
    stepNode ns i = ns.set i { n with status := ruleCompute r (gatherInputs ns n.deps) } := by
  unfold stepNode
  rw [hn]
  dsimp only
  rw [hr]

lemma stepNode_length (ns : Nodes) (i : Nat) : (stepNode ns i).length = ns.length := by
  rcases hn : ns[i]? with _ | n
  · rw [stepNode_eq_of_oob hn]
  · rcases hr : n.rule with _ | r
    · rw [stepNode_eq_of_leaf hn hr]
    · rw [stepNode_eq_of_derived hn hr, List.length_set]

lemma evalUpTo_length (k : Nat) (ns : Nodes) : (evalUpTo k ns).length = ns.length := by
  induction k with
  | zero => rfl
  | succ k ih => rw [evalUpTo_succ, stepNode_length, ih]

lemma evaluate_eq_evalUpTo (ns : Nodes) : evaluate ns = evalUpTo ns.length ns := rfl

lemma evaluate_length (ns : Nodes) : (evaluate ns).length = ns.length := by
  rw [evaluate_eq_evalUpTo, evalUpTo_length]

lemma stepNode_getElem?_ne (ns : Nodes) (i j : Nat) (h : i ≠ j) :
    (stepNode ns i)[j]? = ns[j]? := by
  rcases hn : ns[i]? with _ | n
  · rw [stepNode_eq_of_oob hn]
  · rcases hr : n.rule with _ | r
    · rw [stepNode_eq_of_leaf hn hr]
    · rw [stepNode_eq_of_derived hn hr, List.getElem?_set_ne h]

lemma evalUpTo_stable (ns : Nodes) {j k : Nat} (h : j < k) :
    (evalUpTo k ns)[j]? = (evalUpTo (j + 1) ns)[j]? := by
  induction k with
  | zero => omega
  | succ k ih =>
    rcases Nat.lt_succ_iff_lt_or_eq.mp h with h2 | h2
    · rw [evalUpTo_succ, stepNode_getElem?_ne _ k j (by omega), ih h2]
    · subst h2
      rfl

lemma evalUpTo_untouched (ns : Nodes) {j k : Nat} (h : k ≤ j) :
    (evalUpTo k ns)[j]? = ns[j]? := by
  induction k with
  | zero => rfl
  | succ k ih =>
    rw [evalUpTo_succ, stepNode_getElem?_ne _ k j (by omega), ih (by omega)]

lemma evaluate_stable (ns : Nodes) {j : Nat} (h : j < ns.length) :
    (evaluate ns)[j]? = (evalUpTo (j + 1) ns)[j]? := by
  rw [evaluate_eq_evalUpTo]
  exact evalUpTo_stable ns h

/-- The node at position `i` after evaluation: unchanged if it is a leaf, otherwise its
status is the rule applied to the dependency statuses read when step `i` ran. -/
lemma evaluate_getElem? (ns : Nodes) (i : Nat) (n : StatusNode) (hn : ns[i]? = some n) :
    (evaluate ns)[i]? = some
      (match n.rule with
        | none => n
        | some r => { n with status := ruleCompute r (gatherInputs (evalUpTo i ns) n.deps) }) := by
  have hi : i < ns.length := (List.getElem?_eq_some.mp hn).1
  have hup : (evalUpTo i ns)[i]? = some n := by rw [evalUpTo_untouched ns (Nat.le_refl i), hn]
  rw [evaluate_stable ns hi, evalUpTo_succ]
  rcases hr : n.rule with _ | r
  · rw [stepNode_eq_of_leaf hup hr, hup]
  · rw [stepNode_eq_of_derived hup hr, hr]
    have hlen2 : i < (evalUpTo i ns).length := by
      rw [evalUpTo_length]
      exact hi
    exact List.getElem?_set_self hlen2

lemma nodeAgrees_refl (x : StatusNode) : nodeAgrees x x := ⟨rfl, rfl, rfl, fun _ => rfl⟩

lemma nodeAgrees_symm {x y : StatusNode} (h : nodeAgrees x y) : nodeAgrees y x := by
  obtain ⟨h1, h2, h3, h4⟩ := h
  exact ⟨h1.symm, h2.symm, h3.symm, fun hr => (h4 (by rw [h2, hr])).symm⟩

lemma nodeAgrees_trans {x y z : StatusNode} (h1 : nodeAgrees x y) (h2 : nodeAgrees y z) :
    nodeAgrees x z := by
  obtain ⟨a1, a2, a3, a4⟩ := h1
  obtain ⟨b1, b2, b3, b4⟩ := h2
  exact ⟨a1.trans b1, a2.trans b2, a3.trans b3,
    fun hr => (a4 hr).trans (b4 (by rw [← a2, hr]))⟩

lemma agrees_refl (ns : Nodes) : AgreesOnLeaves ns ns := by
  refine ⟨rfl, ?_⟩
  intro j x y hx hy
  rw [hx] at hy
  injection hy with hy
  subst hy
  exact nodeAgrees_refl x

lemma agrees_symm {a b : Nodes} (h : AgreesOnLeaves a b) : AgreesOnLeaves b a := by
  obtain ⟨hlen, hpt⟩ := h
  exact ⟨hlen.symm, fun j x y hx hy => nodeAgrees_symm (hpt j y x hy hx)⟩

lemma agrees_trans {a b c : Nodes} (h1 : AgreesOnLeaves a b) (h2 : AgreesOnLeaves b c) :
    AgreesOnLeaves a c := by
  obtain ⟨hlen1, hpt1⟩ := h1
  obtain ⟨hlen2, hpt2⟩ := h2
  refine ⟨hlen1.trans hlen2, ?_⟩
  intro j x z hx hz
  have hj : j < b.length := by
    rw [← hlen1]
    exact (List.getElem?_eq_some.mp hx).1
  obtain ⟨y, hy⟩ : ∃ y, b[j]? = some y := ⟨b[j], List.getElem?_eq_getElem hj⟩
  exact nodeAgrees_trans (hpt1 j x y hx hy) (hpt2 j y z hy hz)

lemma stepNode_agrees (ns : Nodes) (i : Nat) : AgreesOnLeaves ns (stepNode ns i) := by
  rcases hn : ns[i]? with _ | n
  · rw [stepNode_eq_of_oob hn]; exact agrees_refl ns
  · rcases hr : n.rule with _ | r
    · rw [stepNode_eq_of_leaf hn hr]; exact agrees_refl ns
    · rw [stepNode_eq_of_derived hn hr]
      refine ⟨(List.length_set ns i _).symm, ?_⟩
      intro j x y hx hy
      by_cases hij : i = j
      · subst hij
        rw [List.getElem?_set_self (List.getElem?_eq_some.mp hn).1] at hy
        rw [hn] at hx
        injection hx with hx
        injection hy with hy
        subst hx
        subst hy
        exact ⟨rfl, rfl, rfl, fun hr2 => by rw [hr] at hr2; cases hr2⟩
      · rw [List.getElem?_set_ne hij] at hy
        rw [hx] at hy
        injection hy with hy
        subst hy
        exact nodeAgrees_refl x

lemma agrees_evalUpTo (k : Nat) (ns : Nodes) : AgreesOnLeaves ns (evalUpTo k ns) := by
  induction k with
  | zero => exact agrees_refl ns
  | succ k ih =>
    rw [evalUpTo_succ]
    exact agrees_trans ih (stepNode_agrees (evalUpTo k ns) k)

lemma agrees_evaluate (ns : Nodes) : AgreesOnLeaves ns (evaluate ns) := by
  rw [evaluate_eq_evalUpTo]
  exact agrees_evalUpTo ns.length ns

lemma topoSorted_of_agrees {a b : Nodes} (hab : AgreesOnLeaves a b)
    (ht : TopoSorted a) : TopoSorted b := by
  obtain ⟨hlen, hpt⟩ := hab
  intro i x hx d hd
  have hi : i < a.length := by
    rw [hlen]
    exact (List.getElem?_eq_some.mp hx).1
  obtain ⟨x0, hx0⟩ : ∃ x0, a[i]? = some x0 := ⟨a[i], List.getElem?_eq_getElem hi⟩
  have hagx := hpt i x0 x hx0 hx
  rw [← hagx.2.2.1] at hd
  obtain ⟨j, y0, hji, hy0, hy0d⟩ := ht i x0 hx0 d hd
  have hj : j < b.length := by
    rw [← hlen]
    exact (List.getElem?_eq_some.mp hy0).1
  obtain ⟨y, hy⟩ : ∃ y, b[j]? = some y := ⟨b[j], List.getElem?_eq_getElem hj⟩
  exact ⟨j, y, hji, hy, by rw [← (hpt j y0 y hy0 hy).1, hy0d]⟩

lemma evaluate_getElem?_leaf {ns : Nodes} {i : Nat} {n : StatusNode}
    (hn : ns[i]? = some n) (hr : n.rule = none) : (evaluate ns)[i]? = some n := by
  rw [evaluate_getElem? ns i n hn, hr]

lemma evaluate_getElem?_derived {ns : Nodes} {i : Nat} {n : StatusNode} {r : Rule}
    (hn : ns[i]? = some n) (hr : n.rule = some r) :
    (evaluate ns)[i]? =
      some { n with status := ruleCompute r (gatherInputs (evalUpTo i ns) n.deps) } := by
  rw [evaluate_getElem? ns i n hn, hr]

lemma statusNode_ext {x y : StatusNode} (h1 : x.name = y.name) (h2 : x.status = y.status)
    (h3 : x.rule = y.rule) (h4 : x.deps = y.deps) : x = y := by
  cases x
  cases y
  simp_all

lemma take_eq_of_prefix_agree (a b : Nodes) (j : Nat)
    (h : ∀ i < j, a[i]? = b[i]?) : a.take j = b.take j := by
  apply List.ext_getElem?
  intro n
  by_cases hn : n < j
  · rw [List.getElem?_take, List.getElem?_take, if_pos hn, if_pos hn]
    exact h n hn
  · rw [List.getElem?_take, List.getElem?_take, if_neg hn, if_neg hn]

lemma find?_eq_find?_take {p : StatusNode → Bool} {l : Nodes} {j : Nat}
    (h : (List.find? p (l.take j)).isSome = true) :
    List.find? p l = List.find? p (l.take j) := by
  conv_lhs => rw [← List.take_append_drop j l]
  rw [List.find?_append]
  rcases hf : List.find? p (l.take j) with _ | v
  · rw [hf] at h
    exact Bool.noConfusion h
  · rfl

lemma findNode_eq_of_prefix_agree (a b : Nodes) (j : Nat) (d : String)
    (hpre : ∀ i < j, a[i]? = b[i]?)
    (hex : ∃ i, i < j ∧ ∃ y, a[i]? = some y ∧ y.name = d) :
    findNode a d = findNode b d := by
  obtain ⟨i0, hi0, y, hy, hyd⟩ := hex
  have htake := take_eq_of_prefix_agree a b j hpre
  have hmem : (List.find? (fun n => n.name = d) (a.take j)).isSome = true := by
    rw [List.find?_isSome]
    have hty : (a.take j)[i0]? = some y := by
      rw [List.getElem?_take, if_pos hi0]
      exact hy
    exact ⟨y, List.getElem?_mem hty, by simp [hyd]⟩
  have hmem2 : (List.find? (fun n => n.name = d) (b.take j)).isSome = true := by
    rw [← htake]
    exact hmem
  rw [findNode, findNode, find?_eq_find?_take hmem, find?_eq_find?_take hmem2, htake]

lemma gatherInputs_congr (a b : Nodes) (deps : List String)
    (h : ∀ d ∈ deps, findNode a d = findNode b d) :
    gatherInputs a deps = gatherInputs b deps := by
  unfold gatherInputs
  apply List.map_congr_left
  intro d hd
  rw [h d hd]

/-- After `evaluate`, every derived node's status is its rule applied to its
dependencies' final statuses: the topological order guarantees each dependency was
finalized before being read. -/
lemma evaluate_consistent (ns : Nodes) (ht : TopoSorted ns) :
    Consistent (evaluate ns) := by
  intro j x r hx hr
  have hj : j < ns.length := by
    have h1 := (List.getElem?_eq_some.mp hx).1
    rw [evaluate_length] at h1
    exact h1
  obtain ⟨n, hn⟩ : ∃ n, ns[j]? = some n := ⟨ns[j], List.getElem?_eq_getElem hj⟩
  rcases hnr : n.rule with _ | r0
  · have he := evaluate_getElem?_leaf hn hnr
    rw [hx] at he
    injection he with he
    subst he
    rw [hnr] at hr
    exact Option.noConfusion hr
  · have he := evaluate_getElem?_derived hn hnr
    rw [hx] at he
    injection he with he
    subst he
    simp only at hr ⊢
    rw [hnr] at hr
    injection hr with hr
    subst hr
    have hpre : ∀ i < j, (evalUpTo j ns)[i]? = (evaluate ns)[i]? := by
      intro i hi
      rw [evalUpTo_stable ns hi, evaluate_stable ns (by omega)]
    congr 1
    apply gatherInputs_congr
    intro d hd
    obtain ⟨jd, z, hjd, hz, hzd⟩ := ht j n hn d hd
    have hjz : jd < (evalUpTo j ns).length := by
      rw [evalUpTo_length]
      exact (List.getElem?_eq_some.mp hz).1
    obtain ⟨z2, hz2⟩ : ∃ z2, (evalUpTo j ns)[jd]? = some z2 :=
      ⟨(evalUpTo j ns)[jd], List.getElem?_eq_getElem hjz⟩
    have hzag := (agrees_evalUpTo j ns).2 jd z z2 hz hz2
    exact findNode_eq_of_prefix_agree (evalUpTo j ns) (evaluate ns) j d hpre
      ⟨jd, hjd, z2, hz2, by rw [← hzag.1, hzd]⟩

/-- Two consistent states with the same topology, rules and leaf statuses are equal:
derived statuses are determined, by strong induction along the topological order. -/
lemma consistent_unique (a b : Nodes) (ht : TopoSorted a) (hca : Consistent a)
    (hcb : Consistent b) (hab : AgreesOnLeaves a b) : a = b := by
  obtain ⟨hlen, hpt⟩ := hab
  have key : ∀ j : Nat, a[j]? = b[j]? := by
    intro j
    induction j using Nat.strong_induction_on with
    | _ j ih =>
      by_cases hjl : j < a.length
      · obtain ⟨x, hx⟩ : ∃ x, a[j]? = some x := ⟨a[j], List.getElem?_eq_getElem hjl⟩
        have hjb : j < b.length := hlen ▸ hjl
        obtain ⟨y, hy⟩ : ∃ y, b[j]? = some y := ⟨b[j], List.getElem?_eq_getElem hjb⟩
        obtain ⟨hname, hrule, hdeps, hleafst⟩ := hpt j x y hx hy
        rcases hxr : x.rule with _ | r
        · have hxy : x = y :=
            statusNode_ext hname (hleafst hxr) hrule hdeps
          rw [hx, hy, hxy]
        · have hyr : y.rule = some r := by rw [← hrule, hxr]
          have hsa := hca j x r hx hxr
          have hsb := hcb j y r hy hyr
          have hg : gatherInputs a x.deps = gatherInputs b x.deps := by
            apply gatherInputs_congr
            intro d hd
            obtain ⟨jd, z, hjd, hz, hzd⟩ := ht j x hx d hd
            exact findNode_eq_of_prefix_agree a b j d (fun i hi => ih i hi)
              ⟨jd, hjd, z, hz, hzd⟩
          have hst : x.status = y.status := by
            rw [hsa, hsb, ← hdeps, hg]
          have hxy : x = y := statusNode_ext hname hst hrule hdeps
          rw [hx, hy, hxy]
      · have h1 : a[j]? = none := List.getElem?_eq_none (by omega)
        have h2 : b[j]? = none := List.getElem?_eq_none (by omega)
        rw [h1, h2]
  exact List.ext_getElem? key

lemma evaluate_idem (ns : Nodes) (ht : TopoSorted ns) :
    evaluate (evaluate ns) = evaluate ns := by
  have h1 : TopoSorted (evaluate ns) := topoSorted_of_agrees (agrees_evaluate ns) ht
  have h2 : Consistent (evaluate ns) := evaluate_consistent ns ht
  have h3 : Consistent (evaluate (evaluate ns)) := evaluate_consistent _ h1
  have h4 : AgreesOnLeaves (evaluate ns) (evaluate (evaluate ns)) := agrees_evaluate _
  exact (consistent_unique _ _ h1 h2 h3 h4).symm

lemma evaluate_congr_leaves {a b : Nodes} (hta : TopoSorted a)
    (hab : AgreesOnLeaves a b) : evaluate a = evaluate b := by
  have htb : TopoSorted b := topoSorted_of_agrees hab hta
  have h1 : TopoSorted (evaluate a) := topoSorted_of_agrees (agrees_evaluate a) hta
  exact consistent_unique _ _ h1 (evaluate_consistent a hta) (evaluate_consistent b htb)
    (agrees_trans (agrees_symm (agrees_evaluate a)) (agrees_trans hab (agrees_evaluate b)))

lemma contains_exists_entry {ns : Nodes} {d : String} (h : containsName ns d = true) :
    ∃ (j : Nat) (y : StatusNode), j < ns.length ∧ ns[j]? = some y ∧ y.name = d := by
  rw [containsName_iff] at h
  obtain ⟨n, hn, hname⟩ := List.mem_map.mp h
  obtain ⟨j, hj⟩ := List.getElem?_of_mem hn
  exact ⟨j, n, (List.getElem?_eq_some.mp hj).1, hj, hname⟩

lemma topo_append {ns : Nodes} {x : StatusNode} (ht : TopoSorted ns)
    (hx : ∀ d ∈ x.deps, containsName ns d = true) : TopoSorted (ns ++ [x]) := by
  intro i y hy d hd
  by_cases hi : i < ns.length
  · rw [List.getElem?_append_left hi] at hy
    obtain ⟨j, z, hji, hz, hzd⟩ := ht i y hy d hd
    have hjlen : j < ns.length := (List.getElem?_eq_some.mp hz).1
    exact ⟨j, z, hji, by rw [List.getElem?_append_left hjlen]; exact hz, hzd⟩
  · have hil : i < ns.length + 1 := by
      have h1 := (List.getElem?_eq_some.mp hy).1
      simpa using h1
    have hieq : i = ns.length := by omega
    subst hieq
    have hsome : (ns ++ [x])[ns.length]? = some x := by
      rw [List.getElem?_append_right (le_refl _)]
      simp
    have hyx : y = x := by
      rw [hsome] at hy
      injection hy with hy
      exact hy.symm
    subst hyx
    obtain ⟨j, z, hjlen, hz, hzd⟩ := contains_exists_entry (hx d hd)
    exact ⟨j, z, hjlen, by rw [List.getElem?_append_left hjlen]; exact hz, hzd⟩

lemma leafPass_topo (cfgs : Config) (ns : Nodes) (ht : TopoSorted ns) :
    TopoSorted (leafPass cfgs ns) := by
  induction cfgs generalizing ns with
  | nil => exact ht
  | cons hd rest ih =>
    obtain ⟨n0, s0⟩ := hd
    rw [leafPass_cons]
    split
    · exact ih _ (topo_append ht (fun d hd => absurd hd (List.not_mem_nil d)))
    · exact ih ns ht

lemma passOnce_topo (cfgs : Config) (ns : Nodes) (p : Bool) (ht : TopoSorted ns) :
    TopoSorted (passOnce cfgs ns p).nodes := by
  induction cfgs generalizing ns p with
  | nil => exact ht
  | cons hd rest ih =>
    obtain ⟨n0, s0⟩ := hd
    by_cases h1 : containsName ns n0 = true
    · rw [passOnce_skip_contains s0 rest p h1]; exact ih ns p ht
    · have h1' := bool_false_of_not_true h1
      by_cases ht2 : s0.effType = "derived"
      · by_cases hd2 : (s0.depNames).all (containsName ns) = true
        · rcases hc : RuleFactory.create s0.ruleName s0.ruleParams with e | r
          · rw [passOnce_step_err rest p h1' ht2 hd2 hc]; exact ht
          · rw [passOnce_step_ok rest p h1' ht2 hd2 hc]
            exact ih _ true (topo_append ht (List.all_eq_true.mp hd2))
        · rw [passOnce_skip_deps rest p h1' ht2 hd2]; exact ih ns p ht
      · rw [passOnce_skip_type rest p h1' ht2]; exact ih ns p ht

lemma buildLoop_topo (cfgs : Config) (fuel : Nat) (ns : Nodes) (ht : TopoSorted ns) :
    TopoSorted (buildLoop cfgs fuel ns).1 := by
  induction fuel generalizing ns with
  | zero => exact ht
  | succ fuel ih =>
    rw [buildLoop_succ]
    rcases hp : passOnce cfgs ns false with ⟨ns2, prog, perr⟩
    have ht2 : TopoSorted ns2 := by
      have h := passOnce_topo cfgs ns false ht
      rw [hp] at h
      exact h
    cases perr with
    | some e => cases prog <;> exact ht2
    | none =>
      cases prog with
      | true => exact ih ns2 ht2
      | false => exact ht2

/-- The creation order of `load_config` is topological: leaves first, and each derived
node only after all of its dependencies. -/
lemma load_config_topo (cfg : Config) : TopoSorted (load_config cfg).1 := by
  rw [load_config_nodes]
  exact buildLoop_topo cfg _ _ (leafPass_topo cfg [] (fun i x hx => by cases hx))

lemma topoSorted_map {f : StatusNode → StatusNode}
    (hf : ∀ n, (f n).name = n.name ∧ (f n).deps = n.deps) {ns : Nodes}
    (ht : TopoSorted ns) : TopoSorted (ns.map f) := by
  intro i x hx d hd
  rw [List.getElem?_map] at hx
  obtain ⟨x0, hx0, hfx⟩ := Option.map_eq_some'.mp hx
  subst hfx
  rw [(hf x0).2] at hd
  obtain ⟨j, z, hji, hz, hzd⟩ := ht i x0 hx0 d hd
  refine ⟨j, f z, hji, ?_, by rw [(hf z).1, hzd]⟩
  rw [List.getElem?_map, hz]
  rfl

lemma set_status_topo (ns : Nodes) (name : String) (v : Status) (ht : TopoSorted ns) :
    TopoSorted (set_status ns name v).1 := by
  unfold set_status
  split
  · exact topoSorted_map (fun n => by split <;> exact ⟨rfl, rfl⟩) ht
  · exact ht

lemma applyImports_topo (ns : Nodes) (imports : List (String × Status))
    (ht : TopoSorted ns) : TopoSorted (applyImports ns imports) := by
  induction imports generalizing ns with
  | nil => exact ht
  | cons hd rest ih =>
    exact ih _ (set_status_topo ns hd.1 hd.2 ht)

/-! ## Claim theorems: evaluation (C7) -/

/-- C7: on any engine state reached by building a description and then importing any
sequence of leaf statuses, evaluation is idempotent — a second `evaluate` with no
intervening import changes nothing — a repetition count never matters, and the result
of `evaluate` depends only on the topology, rules and leaf statuses: two states agreeing
on those (differing at most in derived nodes' cached statuses) evaluate identically. -/
theorem evaluate_idempotent_deterministic (cfg : Config)
    (hsucc : (load_config cfg).2 = none)
    (imports : List (String × Status)) (st : Nodes)
    (hst : st = applyImports (load_config cfg).1 imports) :
    evaluate (evaluate st) = evaluate st ∧
    (∀ k : Nat, evaluate^[k + 1] st = evaluate st) ∧
    (∀ st2, AgreesOnLeaves st st2 → evaluate st = evaluate st2) := by
  have ht : TopoSorted st := by
    rw [hst]
    exact applyImports_topo _ _ (load_config_topo cfg)
  refine ⟨evaluate_idem st ht, ?_, ?_⟩
  · have gen : ∀ (k : Nat) (ns : Nodes), TopoSorted ns →
        evaluate^[k + 1] ns = evaluate ns := by
      intro k
      induction k with
      | zero => intro ns _; rfl
      | succ k ihk =>
        intro ns htn
        rw [Function.iterate_succ_apply,
          ihk (evaluate ns) (topoSorted_of_agrees (agrees_evaluate ns) htn)]
        exact evaluate_idem ns htn
    exact fun k => gen k st ht
  · intro st2 hab
    exact evaluate_congr_leaves ht hab

/-- Witness for `evaluate_idempotent_deterministic` on the spec's end-to-end example
description, importing Green onto `leaf1`. -/
theorem evaluate_idempotent_deterministic_witness :
    (load_config cfgSimple).2 = none ∧
    (evaluate (evaluate (applyImports (load_config cfgSimple).1
        [("leaf1", Status.green)])) =
      evaluate (applyImports (load_config cfgSimple).1 [("leaf1", Status.green)]) ∧
    (∀ k : Nat, evaluate^[k + 1]
        (applyImports (load_config cfgSimple).1 [("leaf1", Status.green)]) =
      evaluate (applyImports (load_config cfgSimple).1 [("leaf1", Status.green)])) ∧
    (∀ st2, AgreesOnLeaves
        (applyImports (load_config cfgSimple).1 [("leaf1", Status.green)]) st2 →
      evaluate (applyImports (load_config cfgSimple).1 [("leaf1", Status.green)]) =
        evaluate st2)) :=
  ⟨by decide,
    evaluate_idempotent_deterministic cfgSimple (by decide) [("leaf1", Status.green)]
      (applyImports (load_config cfgSimple).1 [("leaf1", Status.green)]) rfl⟩

lemma findNode_cons_pos {x : StatusNode} (t : Nodes) {d : String} (h : x.name = d) :
    findNode (x :: t) d = some x := by
  unfold findNode
  exact List.find?_cons_of_pos t (by simp [h])

lemma findNode_cons_neg {x : StatusNode} (t : Nodes) {d : String} (h : ¬ x.name = d) :
    findNode (x :: t) d = findNode t d := by
  unfold findNode
  exact List.find?_cons_of_neg t (by simp [h])

lemma agrees_cons {x y : StatusNode} {a b : Nodes}
    (h : AgreesOnLeaves (x :: a) (y :: b)) :
    nodeAgrees x y ∧ AgreesOnLeaves a b := by
  obtain ⟨hlen, hpt⟩ := h
  refine ⟨hpt 0 x y (by simp) (by simp), ?_, ?_⟩
  · simpa using hlen
  · intro j u w hu hw
    exact hpt (j + 1) u w (by simpa using hu) (by simpa using hw)

lemma findNode_agrees_lists : ∀ {a b : Nodes}, AgreesOnLeaves a b →
    ∀ (d : String) (n : StatusNode), findNode a d = some n →
    ∃ (j : Nat) (y : StatusNode), a[j]? = some n ∧ b[j]? = some y ∧ nodeAgrees n y ∧
      findNode b d = some y := by
  intro a
  induction a with
  | nil =>
    intro b hab d n hf
    exact absurd hf (by simp [findNode])
  | cons x t ih =>
    intro b hab d n hf
    cases b with
    | nil => exact absurd hab.1 (by simp)
    | cons y u =>
      obtain ⟨hxy, htail⟩ := agrees_cons hab
      by_cases hx : x.name = d
      · rw [findNode_cons_pos t hx] at hf
        injection hf with hf
        subst hf
        exact ⟨0, y, by simp, by simp, hxy, findNode_cons_pos u (by rw [← hxy.1]; exact hx)⟩
      · rw [findNode_cons_neg t hx] at hf
        obtain ⟨j, z, hjt, hju, hag, hfind⟩ := ih htail d n hf
        have hy : ¬ y.name = d := by rw [← hxy.1]; exact hx
        exact ⟨j + 1, z, by simpa using hjt, by simpa using hju, hag,
          by rw [findNode_cons_neg u hy]; exact hfind⟩

lemma findNode_unique {ns : Nodes} (hnd : (namesOf ns).Nodup) {d : String}
    {n x : StatusNode} (hfind : findNode ns d = some n) (hx : x ∈ ns)
    (hxd : x.name = d) : x = n := by
  induction ns with
  | nil => cases hx
  | cons h t ih =>
    have hnd2 : (namesOf t).Nodup ∧ h.name ∉ namesOf t := by
      rw [namesOf, List.map_cons] at hnd
      exact ⟨(List.nodup_cons.mp hnd).2, (List.nodup_cons.mp hnd).1⟩
    by_cases hh : h.name = d
    · rw [findNode_cons_pos t hh] at hfind
      injection hfind with hfind
      rcases List.mem_cons.mp hx with rfl | hxt
      · exact hfind
      · exfalso
        apply hnd2.2
        rw [hh, ← hxd]
        exact List.mem_map_of_mem StatusNode.name hxt
    · rw [findNode_cons_neg t hh] at hfind
      rcases List.mem_cons.mp hx with rfl | hxt
      · exact absurd hxd hh
      · exact ih hnd2.1 hfind hxt

lemma findNode_map_name_preserving (ns : Nodes) (f : StatusNode → StatusNode)
    (hf : ∀ n, (f n).name = n.name) (d : String) :
    findNode (ns.map f) d = (findNode ns d).map f := by
  induction ns with
  | nil => rfl
  | cons x t ih =>
    rw [List.map_cons]
    by_cases hx : x.name = d
    · rw [findNode_cons_pos t hx, findNode_cons_pos (t.map f) (by rw [hf x]; exact hx)]
      rfl
    · rw [findNode_cons_neg t hx,
        findNode_cons_neg (t.map f) (by rw [hf x]; exact hx), ih]

lemma load_config_names_nodup (cfg : Config) (hk : (keysOf cfg).Nodup) :
    (namesOf (load_config cfg).1).Nodup := by
  rw [load_config_nodes]
  refine buildLoop_nodup cfg _ _ (leafPass_nodup cfg [] hk (by simp [namesOf]) ?_)
  intro k hk2
  simp [namesOf]

lemma set_status_names (ns : Nodes) (name : String) (v : Status) :
    namesOf (set_status ns name v).1 = namesOf ns := by
  unfold set_status
  split
  · show List.map StatusNode.name
      (ns.map fun m => if m.name = name then { m with status := v } else m)
      = List.map StatusNode.name ns
    rw [List.map_map]
    apply List.map_congr_left
    intro m _
    show (if m.name = name then { m with status := v } else m).name = m.name
    split <;> rfl
  · rfl

lemma applyImports_names (ns : Nodes) (imports : List (String × Status)) :
    namesOf (applyImports ns imports) = namesOf ns := by
  induction imports generalizing ns with
  | nil => rfl
  | cons hd rest ih =>
    show namesOf (applyImports (set_status ns hd.1 hd.2).1 rest) = namesOf ns
    rw [ih, set_status_names]

/-! ## Claim theorems: importing onto a derived node (C8) -/

/-- C8: on a built graph (with any prior imports), `set_status` on an existing derived
node never raises an error; it overwrites the node's cached status, which `get_status`
then returns; and the next `evaluate` recomputes the node from its dependencies,
overwriting the imported value — the evaluated state is identical to what it would have
been without the import, and the node's evaluated status is its rule applied to its
dependencies' evaluated statuses. -/
theorem import_on_derived (cfg : Config) (hk : (keysOf cfg).Nodup)
    (imports : List (String × Status)) (st : Nodes)
    (hst : st = applyImports (load_config cfg).1 imports)
    (d : String) (v : Status) (n : StatusNode)
    (hfind : findNode st d = some n) (hder : n.rule ≠ none) :
    (set_status st d v).2 = none ∧
    get_status (set_status st d v).1 d = some v ∧
    evaluate (set_status st d v).1 = evaluate st ∧
    (∀ r, n.rule = some r →
      get_status (evaluate st) d =
        some (ruleCompute r (gatherInputs (evaluate st) n.deps))) := by
  have hcont : containsName st d = true := by
    rw [← findNode_isSome, hfind]
    rfl
  have hnd : (namesOf st).Nodup := by
    rw [hst, applyImports_names]
    exact load_config_names_nodup cfg hk
  have ht : TopoSorted st := by
    rw [hst]
    exact applyImports_topo _ _ (load_config_topo cfg)
  have hnamed : n.name = d := by
    have h := List.find?_some hfind
    simpa using h
  have hset1 : (set_status st d v).1 =
      st.map (fun m => if m.name = d then { m with status := v } else m) := by
    unfold set_status
    rw [if_pos hcont]
  have hab : AgreesOnLeaves st (set_status st d v).1 := by
    rw [hset1]
    refine ⟨(List.length_map _ _).symm, ?_⟩
    intro j x y hx hy
    rw [List.getElem?_map, hx] at hy
    injection hy with hy
    subst hy
    by_cases hxd : x.name = d
    · have hxn : x = n := findNode_unique hnd hfind (List.getElem?_mem hx) hxd
      subst hxn
      show nodeAgrees x (if x.name = d then { x with status := v } else x)
      rw [if_pos hxd]
      exact ⟨rfl, rfl, rfl, fun hr => absurd hr hder⟩
    · show nodeAgrees x (if x.name = d then { x with status := v } else x)
      rw [if_neg hxd]
      exact nodeAgrees_refl x
  refine ⟨?_, ?_, ?_, ?_⟩
  · unfold set_status
    rw [if_pos hcont]
  · rw [get_status, hset1,
      findNode_map_name_preserving st _ (fun m => by split <;> rfl) d, hfind]
    show some (if n.name = d then { n with status := v } else n).status = some v
    rw [if_pos hnamed]
  · exact (evaluate_congr_leaves ht hab).symm
  · intro r hr
    obtain ⟨j, y, hjst, hjev, hag, hfev⟩ :=
      findNode_agrees_lists (agrees_evaluate st) d n hfind
    have hyr : y.rule = some r := by rw [← hag.2.1]; exact hr
    have hystat := evaluate_consistent st ht j y r hjev hyr
    rw [get_status, hfev]
    show some y.status = _
    rw [hystat, ← hag.2.2.1]

/-- Witness for `import_on_derived` on the spec's end-to-end example description:
importing Red onto the derived node `derived1`. -/
theorem import_on_derived_witness :
    (keysOf cfgSimple).Nodup ∧
    findNode (applyImports (load_config cfgSimple).1 []) "derived1" =
      some ⟨"derived1", Status.unknown, some Rule.worst_status, ["leaf1", "leaf2"]⟩ ∧
    (⟨"derived1", Status.unknown, some Rule.worst_status,
        ["leaf1", "leaf2"]⟩ : StatusNode).rule ≠ none ∧
    ((set_status (applyImports (load_config cfgSimple).1 []) "derived1" Status.red).2
        = none ∧
      get_status
        (set_status (applyImports (load_config cfgSimple).1 []) "derived1"
          Status.red).1 "derived1" = some Status.red ∧
      evaluate
        (set_status (applyImports (load_config cfgSimple).1 []) "derived1"
          Status.red).1 =
        evaluate (applyImports (load_config cfgSimple).1 []) ∧
      (∀ r, (⟨"derived1", Status.unknown, some Rule.worst_status,
          ["leaf1", "leaf2"]⟩ : StatusNode).rule = some r →
        get_status (evaluate (applyImports (load_config cfgSimple).1 [])) "derived1" =
          some (ruleCompute r
            (gatherInputs (evaluate (applyImports (load_config cfgSimple).1 []))
              (⟨"derived1", Status.unknown, some Rule.worst_status,
                ["leaf1", "leaf2"]⟩ : StatusNode).deps)))) :=
  ⟨by decide, by decide, by decide,
    import_on_derived cfgSimple (by decide) []
      (applyImports (load_config cfgSimple).1 []) rfl "derived1" Status.red
      ⟨"derived1", Status.unknown, some Rule.worst_status, ["leaf1", "leaf2"]⟩
      (by decide) (by decide)⟩

lemma leafPass_matches (cfg cfgs : Config) (ns : Nodes)
    (hcfgs : ∀ pr ∈ cfgs, pr ∈ cfg)
    (hns : ∀ n ∈ ns, ∃ spec, (n.name, spec) ∈ cfg ∧ NodeMatchesSpec spec n) :
    ∀ n ∈ leafPass cfgs ns, ∃ spec, (n.name, spec) ∈ cfg ∧ NodeMatchesSpec spec n := by
  induction cfgs generalizing ns with
  | nil => exact hns
  | cons hd rest ih =>
    obtain ⟨n0, s0⟩ := hd
    have hrest : ∀ pr ∈ rest, pr ∈ cfg := fun pr hpr => hcfgs pr (List.mem_cons_of_mem _ hpr)
    have hhd : (n0, s0) ∈ cfg := hcfgs (n0, s0) (List.mem_cons_self _ _)
    rw [leafPass_cons]
    split
    next himp =>
      refine ih _ hrest ?_
      intro n hn
      rcases List.mem_append.mp hn with hn | hn
      · exact hns n hn
      · rw [List.mem_singleton] at hn
        subst hn
        exact ⟨s0, hhd, Or.inl ⟨himp, rfl, rfl, rfl⟩⟩
    next _ => exact ih ns hrest hns

lemma passOnce_matches (cfg cfgs : Config) (ns : Nodes) (p : Bool)
    (hcfgs : ∀ pr ∈ cfgs, pr ∈ cfg)
    (hns : ∀ n ∈ ns, ∃ spec, (n.name, spec) ∈ cfg ∧ NodeMatchesSpec spec n) :
    ∀ n ∈ (passOnce cfgs ns p).nodes,
      ∃ spec, (n.name, spec) ∈ cfg ∧ NodeMatchesSpec spec n := by
  induction cfgs generalizing ns p with
  | nil => exact hns
  | cons hd rest ih =>
    obtain ⟨n0, s0⟩ := hd
    have hrest : ∀ pr ∈ rest, pr ∈ cfg := fun pr hpr => hcfgs pr (List.mem_cons_of_mem _ hpr)
    have hhd : (n0, s0) ∈ cfg := hcfgs (n0, s0) (List.mem_cons_self _ _)
    by_cases h1 : containsName ns n0 = true
    · rw [passOnce_skip_contains s0 rest p h1]; exact ih ns p hrest hns
    · have h1' := bool_false_of_not_true h1
      by_cases ht2 : s0.effType = "derived"
      · by_cases hd2 : (s0.depNames).all (containsName ns) = true
        · rcases hc : RuleFactory.create s0.ruleName s0.ruleParams with e | r
          · rw [passOnce_step_err rest p h1' ht2 hd2 hc]; exact hns
          · rw [passOnce_step_ok rest p h1' ht2 hd2 hc]
            refine ih _ true hrest ?_
            intro n hn
            rcases List.mem_append.mp hn with hn | hn
            · exact hns n hn
            · rw [List.mem_singleton] at hn
              subst hn
              exact ⟨s0, hhd, Or.inr ⟨ht2, rfl, rfl, r, hc, rfl⟩⟩
        · rw [passOnce_skip_deps rest p h1' ht2 hd2]; exact ih ns p hrest hns
      · rw [passOnce_skip_type rest p h1' ht2]; exact ih ns p hrest hns

lemma buildLoop_matches (cfg : Config) (fuel : Nat) (ns : Nodes)
    (hns : ∀ n ∈ ns, ∃ spec, (n.name, spec) ∈ cfg ∧ NodeMatchesSpec spec n) :
    ∀ n ∈ (buildLoop cfg fuel ns).1,
      ∃ spec, (n.name, spec) ∈ cfg ∧ NodeMatchesSpec spec n := by
  induction fuel generalizing ns with
  | zero => exact hns
  | succ fuel ih =>
    rw [buildLoop_succ]
    rcases hp : passOnce cfg ns false with ⟨ns2, prog, perr⟩
    have hns2 : ∀ n ∈ ns2, ∃ spec, (n.name, spec) ∈ cfg ∧ NodeMatchesSpec spec n := by
      have h := passOnce_matches cfg cfg ns false (fun pr hpr => hpr) hns
      rw [hp] at h
      exact h
    cases perr with
    | some e => cases prog <;> exact hns2
    | none =>
      cases prog with
      | true => exact ih ns2 hns2
      | false => exact hns2

/-- Every node of a build result was created from a description entry bearing its
name, as `NodeMatchesSpec` describes. -/
lemma load_config_matches (cfg : Config) :
    ∀ n ∈ (load_config cfg).1,
      ∃ spec, (n.name, spec) ∈ cfg ∧ NodeMatchesSpec spec n := by
  rw [load_config_nodes]
  exact buildLoop_matches cfg _ _
    (leafPass_matches cfg cfg [] (fun pr hpr => hpr) (fun n hn => absurd hn (List.not_mem_nil n)))

/-! ## Claim theorems: rule-name defaulting (C10) -/

/-- C10: a derived specification without a `rule` key gets the Worst rule — the rule
name defaults to "worst_status", the factory succeeds on it (no failure), and the
created node carries `worst_status`; and `RuleFactory::create` throws the UnknownRule
error exactly for names outside {"worst_status", "threshold_rollup",
"majority_vote"}. -/
theorem default_rule_is_worst (cfg : Config) (hk : (keysOf cfg).Nodup)
    (name : String) (spec : NodeSpec) (n : StatusNode)
    (hmem : (name, spec) ∈ cfg) (hder : spec.effType = "derived")
    (hnorule : spec.rule = none)
    (hfind : findNode (load_config cfg).1 name = some n) :
    RuleFactory.create spec.ruleName spec.ruleParams = Except.ok Rule.worst_status ∧
    n.rule = some Rule.worst_status ∧
    (∀ (rn : String) (p : Params),
      (∃ e, RuleFactory.create rn p = Except.error e) ↔
        rn ≠ "worst_status" ∧ rn ≠ "threshold_rollup" ∧ rn ≠ "majority_vote") := by
  have hcreate : RuleFactory.create spec.ruleName spec.ruleParams
      = Except.ok Rule.worst_status := by
    have hrn : spec.ruleName = "worst_status" := by
      rw [NodeSpec.ruleName, hnorule]
      rfl
    rw [hrn]
    simp [RuleFactory.create]
  refine ⟨hcreate, ?_, ?_⟩
  · have hmem2 : n ∈ (load_config cfg).1 := List.mem_of_find?_eq_some hfind
    have hnname : n.name = name := by simpa using List.find?_some hfind
    obtain ⟨spec2, hmem2', hmatch⟩ := load_config_matches cfg n hmem2
    rw [hnname] at hmem2'
    have hspec : spec2 = spec := nodup_keys_unique hk hmem2' hmem
    subst hspec
    rcases hmatch with ⟨himp, _⟩ | ⟨_, _, _, r, hcr, hrule⟩
    · rw [hder] at himp
      exact absurd himp (by decide)
    · rw [hcreate] at hcr
      have hr : Rule.worst_status = r := by injection hcr
      rw [hrule, ← hr]
  · intro rn p
    constructor
    · rintro ⟨e, he⟩
      by_cases h1 : rn = "worst_status"
      · rw [RuleFactory.create, if_pos h1] at he
        exact absurd he (by simp)
      · by_cases h2 : rn = "threshold_rollup"
        · rw [RuleFactory.create, if_neg h1, if_pos h2] at he
          exact absurd he (by simp)
        · by_cases h3 : rn = "majority_vote"
          · rw [RuleFactory.create, if_neg h1, if_neg h2, if_pos h3] at he
            exact absurd he (by simp)
          · exact ⟨h1, h2, h3⟩
    · rintro ⟨h1, h2, h3⟩
      rw [RuleFactory.create, if_neg h1, if_neg h2, if_neg h3]
      exact ⟨"Unknown rule: " ++ rn, rfl⟩

/-- Witness for `default_rule_is_worst` at the description `cfgDefaultRule`, whose
derived node `d` has no `rule` key. -/
theorem default_rule_is_worst_witness :
    (keysOf cfgDefaultRule).Nodup ∧
    ("d", ({ type := some "derived", dependencies := some ["l"] } : NodeSpec))
      ∈ cfgDefaultRule ∧
    ({ type := some "derived", dependencies := some ["l"] } : NodeSpec).effType
      = "derived" ∧
    ({ type := some "derived", dependencies := some ["l"] } : NodeSpec).rule = none ∧
    findNode (load_config cfgDefaultRule).1 "d" =
      some ⟨"d", Status.unknown, some Rule.worst_status, ["l"]⟩ ∧
    (RuleFactory.create
        ({ type := some "derived", dependencies := some ["l"] } : NodeSpec).ruleName
        ({ type := some "derived", dependencies := some ["l"] } : NodeSpec).ruleParams
        = Except.ok Rule.worst_status ∧
      (⟨"d", Status.unknown, some Rule.worst_status, ["l"]⟩ : StatusNode).rule
        = some Rule.worst_status ∧
      (∀ (rn : String) (p : Params),
        (∃ e, RuleFactory.create rn p = Except.error e) ↔
          rn ≠ "worst_status" ∧ rn ≠ "threshold_rollup" ∧ rn ≠ "majority_vote")) :=
  ⟨by decide, List.mem_cons_of_mem _ (List.mem_cons_self _ _), by decide, rfl,
    by decide,
    default_rule_is_worst cfgDefaultRule (by decide) "d"
      { type := some "derived", dependencies := some ["l"] }
      ⟨"d", Status.unknown, some Rule.worst_status, ["l"]⟩
      (List.mem_cons_of_mem _ (List.mem_cons_self _ _)) (by decide) rfl (by decide)⟩

end StatusRollup
